import Mathlib

/-!
Verification of the ChoiceMap graph leveling and layout engine
(`shared-utils.js`): BFS node leveling, effective-level lookup, automatic
positioning, connection path geometry and arrow placement.

JS numbers are modelled as exact rationals (`ℚ`) or, where the code applies
`Math.atan2`, as reals (`ℝ`); floating-point rounding is abstracted.  The JS
`NaN` produced by `parseInt` on a non-numeric string is modelled as `none` of
an `Option`.  JS objects are modelled as association lists; JS object key
uniqueness appears as a `Nodup` hypothesis on the key list where it matters.
-/

namespace ChoiceMap

/-- A single choice of a node.  In the source a choice's `next` field (the
target node id) may be absent, `null`, or a string; `none` models an
absent/null target.  The empty string is falsy in JS and the traversal's
`choice.next &&` guard is modelled by an explicit `!= ""` test. -/
structure Choice where
  next : Option String
deriving DecidableEq

/-- The explicit `level` field of a node may be a number or a string in the
source (absent and `null` are modelled by `Option` at the use site). -/
inductive LevelVal where
  | num (n : Int)
  | str (s : String)
deriving DecidableEq

/-- A scenario node as seen by the layout engine: an ordered choice list and
an optional explicit level override. -/
structure Node where
  choices : List Choice := []
  level : Option LevelVal := none
deriving DecidableEq

/-- The node mapping `{nodeId: node}`: an association list, first binding
wins on lookup.  JS object keys are unique; theorems that need this assume
`(keys nodes).Nodup`. -/
abbrev Nodes := List (String × Node)

/-- `Object.keys(nodes)` in insertion order. -/
def keys (nodes : Nodes) : List String := nodes.map Prod.fst

/-- `nodes[id]`, `undefined` as `none`. -/
def lookupNode (nodes : Nodes) (id : String) : Option Node :=
  (nodes.find? (fun p => p.1 == id)).map Prod.snd

/-- Decimal digit run to a natural number. -/
def digitsToNat (ds : List Char) : Nat :=
  ds.foldl (fun a c => a * 10 + (c.toNat - 48)) 0

/-- Hexadecimal digit test for `parseInt`'s `0x` form. -/
def isHexDigit (c : Char) : Bool :=
  c.isDigit || ('a' ≤ c && c ≤ 'f') || ('A' ≤ c && c ≤ 'F')

/-- Hexadecimal digit value. -/
def hexVal (c : Char) : Nat :=
  if c.isDigit then c.toNat - 48
  else if 'a' ≤ c && c ≤ 'f' then c.toNat - 87
  else c.toNat - 55

/-- JS `parseInt(s)` with no radix: skip leading whitespace, optional sign,
optional `0x`/`0X` hex prefix, then the longest digit prefix; `none` models
`NaN`.  Trailing whitespace is ignored garbage to `parseInt`, so only the
leading skip is modelled. -/
def jsParseInt (s : String) : Option Int :=
  let l := s.toList.dropWhile Char.isWhitespace
  let sr : Int × List Char :=
    match l with
    | '-' :: r => (-1, r)
    | '+' :: r => (1, r)
    | r => (1, r)
  match sr.2 with
  | '0' :: x :: r =>
    if x == 'x' || x == 'X' then
      let ds := r.takeWhile isHexDigit
      if ds.isEmpty then none
      else some (sr.1 * (ds.foldl (fun a c => a * 16 + hexVal c) 0 : Nat))
    else
      let ds := sr.2.takeWhile Char.isDigit
      if ds.isEmpty then none else some (sr.1 * (digitsToNat ds : Nat))
  | _ =>
    let ds := sr.2.takeWhile Char.isDigit
    if ds.isEmpty then none else some (sr.1 * (digitsToNat ds : Nat))

/-- `parseInt(level)` as applied to an explicit level field: a numeric level
is stringified and reparsed, the identity on integers; a string level goes
through `jsParseInt`.  `none` models `NaN`. -/
def parseIntOfLevel : LevelVal → Option Int
  | .num n => some n
  | .str s => jsParseInt s

/-- The level map `{level: nodeIds[]}` of `calculateNodeLevels`.  JS objects
enumerate integer-like keys ascending, so the model keeps the list sorted by
key; `addToLevel` below preserves that order. -/
abbrev LevelMap := List (Nat × List String)

/-- `if (!levels[level]) levels[level] = []; levels[level].push(id)`,
with the JS ascending-numeric-key enumeration order maintained. -/
def addToLevel (m : LevelMap) (lvl : Nat) (id : String) : LevelMap :=
  match m with
  | [] => [(lvl, [id])]
  | (l, ids) :: rest =>
    if lvl < l then (lvl, [id]) :: (l, ids) :: rest
    else if lvl = l then (l, ids ++ [id]) :: rest
    else (l, ids) :: addToLevel rest lvl id

/-- All node ids in all buckets, in enumeration order. -/
def allIds (m : LevelMap) : List String := (m.map Prod.snd).flatten

/-- The key of the first bucket containing `id`: the level the map assigns
to `id`, if any. -/
def bucketOf (m : LevelMap) (id : String) : Option Nat :=
  (m.find? (fun p => p.2.contains id)).map Prod.fst

/-- A BFS queue entry `{id, level}`. -/
structure QEntry where
  id : String
  level : Nat
deriving DecidableEq

/-- The entries pushed while processing one node
(`(nodes[id].choices || []).forEach(...)`): one entry at `level + 1` for
every choice whose `next` is a non-empty string not yet visited.  `visited`
is the visited set *after* the processed node was added, as in the source
(`visited.add(id)` precedes the `forEach`). -/
def enqueueEntry (visited : List String) (level : Nat) (c : Choice) : Option QEntry :=
  match c.next with
  | some s => if s != "" && !visited.contains s then some ⟨s, level + 1⟩ else none
  | none => none

def newQueueEntries (choices : List Choice) (visited : List String) (level : Nat) :
    List QEntry :=
  choices.filterMap (enqueueEntry visited level)

/-- The source's BFS loop (`while (qi < queue.length)`), fueled: `fuel`
bounds the number of dequeues and `bfsFuel` is proven sufficient
(`bfsAux_isSome`), so the out-of-fuel `none` branch is unreachable from
`calculateNodeLevels`.  Returns `some` of the level buckets and the visited
list (in visit order) exactly when the queue empties. -/
def bfsAux (nodes : Nodes) : Nat → List QEntry → List String → LevelMap →
    Option (LevelMap × List String)
  | _, [], visited, levels => some (levels, visited)
  | 0, _ :: _, _, _ => none
  | fuel + 1, ⟨id, level⟩ :: rest, visited, levels =>
    if visited.contains id then bfsAux nodes fuel rest visited levels
    else
      match lookupNode nodes id with
      | none => bfsAux nodes fuel rest visited levels
      | some node =>
        bfsAux nodes fuel (rest ++ newQueueEntries node.choices (visited ++ [id]) level)
          (visited ++ [id]) (addToLevel levels level id)

/-- Fuel sufficient for the BFS loop: one dequeue for the initial entry plus
at most one enqueue per choice of each node. -/
def bfsFuel (nodes : Nodes) : Nat :=
  1 + (nodes.map (fun p => p.2.choices.length)).sum

/-- `calculateNodeLevels(nodes, startNode)`: BFS from `{id: startNode,
level: 1}`, then every key of the mapping not visited is appended to the
level-0 orphan bucket in key order. -/
def calculateNodeLevels (nodes : Nodes) (startNode : String) : LevelMap :=
  match bfsAux nodes (bfsFuel nodes) [⟨startNode, 1⟩] [] [] with
  | some (levels, visited) =>
    (keys nodes).foldl
      (fun lv id => if visited.contains id then lv else addToLevel lv 0 id) levels
  | none => []

/-- The fallback branch of `getEffectiveLevel`: scan the supplied (or freshly
computed) level map for the first bucket containing the node and return its
key, else `0`. -/
def computedLevel (nodeId : String) (nodes : Nodes) (startNode : String)
    (levelsMap : Option LevelMap) : Int :=
  match bucketOf (levelsMap.getD (calculateNodeLevels nodes startNode)) nodeId with
  | some lvl => (lvl : Int)
  | none => 0

/-- `getEffectiveLevel(nodeId, nodes, startNode, levelsMap)`.  The result is
`Option Int`: `none` models the JS `NaN` returned when an explicit level is
a non-empty string with no parseable digits. -/
def getEffectiveLevel (nodeId : String) (nodes : Nodes) (startNode : String)
    (levelsMap : Option LevelMap) : Option Int :=
  match (lookupNode nodes nodeId).bind Node.level with
  | some lv =>
    if lv = LevelVal.str "" then some (computedLevel nodeId nodes startNode levelsMap)
    else parseIntOfLevel lv
  | none => some (computedLevel nodeId nodes startNode levelsMap)

/-- Result record of `getNodeLevel`: `level` is `Option Int` (`none` models
`NaN`), `position` is an `Int` (it can be `0` through JS `indexOf`
returning `-1`). -/
structure NodeLevelPos where
  level : Option Int
  position : Int
deriving DecidableEq

/-- The direct-lookup branch of `getNodeLevel` with a caller-supplied map:
the first bucket (in enumeration order) whose id list contains the node,
together with the node's 1-based index there (`idx !== -1` is the `contains`
guard). -/
def findInLevels (lm : LevelMap) (nodeId : String) : Option (Nat × Nat) :=
  match lm with
  | [] => none
  | (lvl, ids) :: rest =>
    if ids.contains nodeId then some (lvl, ids.indexOf nodeId + 1)
    else findInLevels rest nodeId

/-- JS `===` on two effective-level values: `NaN` (`none`) compares unequal
to everything, including itself. -/
def jsNumEq : Option Int → Option Int → Bool
  | some a, some b => a == b
  | _, _ => false

/-- `getNodeLevel(nodeId, nodes, startNode, levelsMap)`. -/
def getNodeLevel (nodeId : String) (nodes : Nodes) (startNode : String)
    (levelsMap : Option LevelMap) : NodeLevelPos :=
  match levelsMap with
  | some lm =>
    match findInLevels lm nodeId with
    | some lp => ⟨some (lp.1 : Int), (lp.2 : Int)⟩
    | none => ⟨some 0, 1⟩
  | none =>
    let calculatedLevels := calculateNodeLevels nodes startNode
    let effectiveLevel := getEffectiveLevel nodeId nodes startNode (some calculatedLevels)
    let nodesAtSameLevel := (keys nodes).filter
      (fun id => jsNumEq (getEffectiveLevel id nodes startNode (some calculatedLevels))
        effectiveLevel)
    ⟨effectiveLevel,
     (if nodesAtSameLevel.contains nodeId
      then (nodesAtSameLevel.indexOf nodeId : Int) else -1) + 1⟩

/-- Layout configuration `{levelHeight, nodeWidth, nodeHeight, padding}`. -/
structure LayoutConfig where
  levelHeight : ℚ
  nodeWidth : ℚ
  nodeHeight : ℚ
  padding : ℚ
deriving DecidableEq

/-- The defaults applied when no configuration is supplied. -/
def defaultLayout : LayoutConfig := ⟨120, 140, 44, 60⟩

/-- A computed node position.  `y` is an `Option` because a `NaN` effective
level propagates into `y` (`parseInt("NaN") * levelHeight + padding`). -/
structure NodePos where
  x : ℚ
  y : Option ℚ
deriving DecidableEq

/-- `levelGroups[effectiveLevel].push(nodeId)`, creating the bucket on first
use.  JS object keys compare by their string image, under which `NaN` equals
`NaN`, so plain `Option Int` key equality is faithful. -/
def addToGroup (gs : List (Option Int × List String)) (k : Option Int) (id : String) :
    List (Option Int × List String) :=
  match gs with
  | [] => [(k, [id])]
  | (k', ids) :: rest =>
    if k' = k then (k', ids ++ [id]) :: rest
    else (k', ids) :: addToGroup rest k id

/-- The grouping pass of `calculateAutoPositions`: nodes grouped by effective
level over `Object.keys(nodes)` in key order. -/
def levelGroupsOf (nodes : Nodes) (startNode : String) (levelsMap : LevelMap) :
    List (Option Int × List String) :=
  (keys nodes).foldl
    (fun gs nodeId =>
      addToGroup gs (getEffectiveLevel nodeId nodes startNode (some levelsMap)) nodeId)
    []

/-- `Math.max(...keys.map(Number), 1)`: `none` (`NaN`) absorbs. -/
def jsMaxLevel (gs : List (Option Int × List String)) : Option Int :=
  if gs.any (fun g => g.1.isNone) then none
  else some ((gs.filterMap Prod.fst).foldl max 1)

/-- The record returned by `calculateAutoPositions`. -/
structure AutoPositions where
  positions : List (String × NodePos)
  maxWidth : ℚ
  maxLevel : Option Int

/-- The `maxWidth` scan: `Math.max` over `nodeIds.length * nodeWidth` of all
level groups, starting from 0. -/
def maxWidthOf (config : LayoutConfig) (gs : List (Option Int × List String)) : ℚ :=
  gs.foldl (fun m g => max m ((g.2.length : ℚ) * config.nodeWidth)) 0

/-- The per-group positioning pass: horizontally center the group's nodes in
`maxWidth` and place them `nodeWidth` apart; `y = parseInt(level) *
levelHeight + padding` (so a `NaN` group key gives a `NaN` y). -/
def groupPositions (config : LayoutConfig) (maxWidth : ℚ)
    (g : Option Int × List String) : List (String × NodePos) :=
  let totalWidth := (g.2.length : ℚ) * config.nodeWidth
  let startX := (maxWidth - totalWidth) / 2 + config.nodeWidth / 2
  g.2.enum.map (fun ie =>
    (ie.2, ⟨startX + (ie.1 : ℚ) * config.nodeWidth + config.padding,
            g.1.map (fun k => (k : ℚ) * config.levelHeight + config.padding)⟩))

/-- `calculateAutoPositions(nodes, startNode, layoutConfig)`. -/
def calculateAutoPositions (nodes : Nodes) (startNode : String)
    (layoutConfig : Option LayoutConfig) : AutoPositions :=
  let config := layoutConfig.getD defaultLayout
  let levelsMap := calculateNodeLevels nodes startNode
  let levelGroups := levelGroupsOf nodes startNode levelsMap
  let maxWidth := maxWidthOf config levelGroups
  ⟨levelGroups.foldl (fun ps g => ps ++ groupPositions config maxWidth g) [],
   maxWidth, jsMaxLevel levelGroups⟩

/-- A 2D point (a node center position). -/
structure Pt where
  x : ℚ
  y : ℚ
deriving DecidableEq

/-- A connection: resolved `from`/`to` node centers plus the two caller-set
classification booleans (`from`/`to` are keywords in Lean, hence the
trailing underscores). -/
structure Conn where
  from_ : Pt
  to_ : Pt
  isLoop : Bool
  isSameLevel : Bool
deriving DecidableEq

/-- The geometry record returned by `getConnectionPath`.  The SVG `path`
string in the source is a textual rendering of the same numbers and is not
modelled separately. -/
inductive PathGeometry (α : Type) where
  | line (x1 y1 x2 y2 : α)
  | bezier (x1 y1 x2 y2 cx cy : α)
deriving DecidableEq

/-- The `(x1, y1)` starting anchor of a path geometry. -/
def pathStart {α : Type} : PathGeometry α → α × α
  | .line x1 y1 _ _ => (x1, y1)
  | .bezier x1 y1 _ _ _ _ => (x1, y1)

/-- The `(x2, y2)` ending anchor of a path geometry. -/
def pathEnd {α : Type} : PathGeometry α → α × α
  | .line _ _ x2 y2 => (x2, y2)
  | .bezier _ _ x2 y2 _ _ => (x2, y2)

/-- Whether the geometry has `type: 'line'`. -/
def isLineType {α : Type} : PathGeometry α → Bool
  | .line _ _ _ _ => true
  | .bezier _ _ _ _ _ _ => false

/-- `getConnectionPath(conn, nodeHeight)`.  `0.3` is the exact rational
`3 / 10` (floating-point rounding abstracted). -/
def getConnectionPath (conn : Conn) (nodeHeight : ℚ) : PathGeometry ℚ :=
  let x1 := conn.from_.x
  let y1 := conn.from_.y + nodeHeight / 2
  let x2 := conn.to_.x
  let y2 := conn.to_.y - nodeHeight / 2
  if !conn.isLoop && !conn.isSameLevel then
    .line x1 y1 x2 y2
  else
    let midX := (x1 + x2) / 2
    let midY := (y1 + y2) / 2
    let visuallyBackward := conn.to_.y < conn.from_.y
    let curveOffset : ℚ :=
      if conn.isLoop then max 80 (|conn.from_.y - conn.to_.y| * (3 / 10) + 60) else 50
    let curveDirection : ℚ := if x1 ≤ x2 then 1 else -1
    let controlX := midX + curveOffset * curveDirection * (if conn.isLoop then 3 / 2 else 1)
    let controlY := if visuallyBackward then min y1 y2 - 30 else midY
    .bezier x1 y1 x2 y2 controlX controlY

/-- JS `Math.atan2(y, x)` (signed zeros not modelled: `atan2(±0, -0)` is
taken as `atan2(0, 0) = 0`). -/
noncomputable def jsAtan2 (y x : ℝ) : ℝ :=
  if 0 < x then Real.arctan (y / x)
  else if x < 0 then
    (if 0 ≤ y then Real.arctan (y / x) + Real.pi else Real.arctan (y / x) - Real.pi)
  else
    (if 0 < y then Real.pi / 2 else if y < 0 then -(Real.pi / 2) else 0)

/-- The record returned by `getArrowPosition`: arrow anchor point and angle
in degrees. -/
structure ArrowPos where
  x : ℝ
  y : ℝ
  angle : ℝ

/-- `getArrowPosition(pathData)`: midpoint-and-angle for a line, the inlined
quadratic Bézier point and tangent formulas at `t = 0.5` for a curve. -/
noncomputable def getArrowPosition : PathGeometry ℝ → ArrowPos
  | .line x1 y1 x2 y2 =>
    ⟨(x1 + x2) / 2, (y1 + y2) / 2, jsAtan2 (y2 - y1) (x2 - x1) * 180 / Real.pi⟩
  | .bezier x1 y1 x2 y2 cx cy =>
    let t : ℝ := 1 / 2
    ⟨(1 - t) * (1 - t) * x1 + 2 * (1 - t) * t * cx + t * t * x2,
     (1 - t) * (1 - t) * y1 + 2 * (1 - t) * t * cy + t * t * y2,
     jsAtan2 (2 * (1 - t) * (cy - y1) + 2 * t * (y2 - cy))
       (2 * (1 - t) * (cx - x1) + 2 * t * (x2 - cx)) * 180 / Real.pi⟩

/-- The standard quadratic Bézier point `(1 − t)² P0 + 2(1 − t)t C + t² P1`
(the specification-side formula `getArrowPosition` is compared against). -/
def bezierPoint (t : ℝ) (p0 c p1 : ℝ × ℝ) : ℝ × ℝ :=
  ((1 - t) ^ 2 * p0.1 + 2 * (1 - t) * t * c.1 + t ^ 2 * p1.1,
   (1 - t) ^ 2 * p0.2 + 2 * (1 - t) * t * c.2 + t ^ 2 * p1.2)

/-- The quadratic Bézier derivative `2(1 − t)(C − P0) + 2t(P1 − C)`. -/
def bezierDeriv (t : ℝ) (p0 c p1 : ℝ × ℝ) : ℝ × ℝ :=
  (2 * (1 - t) * (c.1 - p0.1) + 2 * t * (p1.1 - c.1),
   2 * (1 - t) * (c.2 - p0.2) + 2 * t * (p1.2 - c.2))

/-- One forward choice edge of the graph: `a` is a key of the mapping and one
of its choices targets `c` with a non-empty id (the traversal's enqueue
guard). -/
def edgeTo (nodes : Nodes) (a c : String) : Prop :=
  ∃ node, lookupNode nodes a = some node ∧ (∃ ch ∈ node.choices, ch.next = some c) ∧ c ≠ ""

/-- `ReachN nodes a b n`: `b` is reachable from `a` in exactly `n` forward
hops along choice edges. -/
inductive ReachN (nodes : Nodes) : String → String → Nat → Prop where
  | refl (a : String) : ReachN nodes a a 0
  | step {a b c : String} {n : Nat} :
      ReachN nodes a b n → edgeTo nodes b c → ReachN nodes a c (n + 1)

/-- `d` is the shortest hop distance from `a` to `b`. -/
def IsShortestDist (nodes : Nodes) (a b : String) (d : Nat) : Prop :=
  ReachN nodes a b d ∧ ∀ m, ReachN nodes a b m → d ≤ m

/-- The choice graph has no nonempty cycle. -/
def Acyclic (nodes : Nodes) : Prop := ∀ x n, 0 < n → ¬ ReachN nodes x x n

/-! ### Basic lemmas about the node mapping and the level map -/

/-! ### Auxiliary definitions for the proofs: capacity bound, group id
lists, the grouping key function, and concrete example inputs -/

/-- Total number of choices on not-yet-visited bindings: an upper bound on
the enqueues the loop can still perform. -/
def remCapacity (nodes : Nodes) (visited : List String) : Nat :=
  (nodes.map (fun p => if visited.contains p.1 then 0 else p.2.choices.length)).sum

/-- The four-node example of the specification: `A → B → C` plus the
orphan `D`. -/
def exNodesABCD : Nodes :=
  [("A", ⟨[⟨some "B"⟩], none⟩), ("B", ⟨[⟨some "C"⟩], none⟩),
   ("C", ⟨[], none⟩), ("D", ⟨[], none⟩)]

/-- A two-node cycle with an additional self-loop: `A → B → A` and
`A → A`. -/
def exNodesCyc : Nodes :=
  [("A", ⟨[⟨some "B"⟩, ⟨some "A"⟩], none⟩), ("B", ⟨[⟨some "A"⟩], none⟩)]

/-- The single self-loop node of C9: `A` with one choice back to `A`. -/
def selfLoopNodes : Nodes := [("A", ⟨[⟨some "A"⟩], none⟩)]

/-- Node `A` carrying the non-numeric explicit level `"abc"`, reachable as
the start node (computed BFS level 1). -/
def exNaNNodes : Nodes := [("A", ⟨[], some (.str "abc")⟩)]

/-- Two nodes `A → B` where `B` carries the explicit level `-3`. -/
def exNegOvNodes : Nodes :=
  [("A", ⟨[⟨some "B"⟩], none⟩), ("B", ⟨[], some (.num (-3))⟩)]

/-- The caller-supplied levels map used in the C10 witness. -/
def exLevelsMapC10 : LevelMap := [(1, ["A"]), (2, ["B", "C"])]

/-- All node ids in all level groups, in order. -/
def allGroupIds (gs : List (Option Int × List String)) : List String :=
  (gs.map Prod.snd).flatten

/-- The effective-level function that drives the grouping pass. -/
def effLevelFn (nodes : Nodes) (startNode : String) : String → Option Int :=
  fun id =>
    getEffectiveLevel id nodes startNode (some (calculateNodeLevels nodes startNode))

/-- A start node `S` fanning out to `A` and `B` (so `A` and `B` share
effective level 2). -/
def exFanNodes : Nodes :=
  [("S", ⟨[⟨some "A"⟩, ⟨some "B"⟩], none⟩), ("A", ⟨[], none⟩), ("B", ⟨[], none⟩)]

/-- A degenerate but well-typed layout configuration: `levelHeight = 0` and
`nodeWidth = 0`. -/
def degenerateLayout : LayoutConfig := ⟨0, 0, 44, 60⟩

/-- The single-node mapping of the C2 counterexample. -/
def exSingleNode : Nodes := [("A", ⟨[], none⟩)]

/-- A rank function certifying the acyclicity of `exNodesABCD`: it strictly
increases along every edge. -/
def rankABCD (s : String) : Nat := if s = "A" then 1 else if s = "B" then 2 else 3

theorem enqueueEntry_eq_some {visited : List String} {level : Nat} {c : Choice}
    {e : QEntry} :
    enqueueEntry visited level c = some e ↔
      c.next = some e.id ∧ e.id ≠ "" ∧ e.id ∉ visited ∧ e.level = level + 1 := by
  rcases c with ⟨cn⟩
  cases cn with
  | none => simp [enqueueEntry]
  | some s =>
    rcases e with ⟨eid, elevel⟩
    simp only [enqueueEntry]
    by_cases h1 : s = ""
    · subst h1
      have hcond : (("" : String) != "" && !visited.contains "") = false := by simp
      rw [hcond]
      simp only [Bool.false_eq_true, if_false]
      constructor
      · intro h
        exact absurd h (by simp)
      · rintro ⟨hs, hne, -, -⟩
        exact absurd (Option.some.inj hs).symm hne
    · by_cases h2 : s ∈ visited
      · have hcond : (s != "" && !visited.contains s) = false := by
          simp [List.elem_eq_mem, h2]
        rw [hcond]
        simp only [Bool.false_eq_true, if_false]
        constructor
        · intro h
          exact absurd h (by simp)
        · rintro ⟨hs, -, hnv, -⟩
          exact absurd ((Option.some.inj hs) ▸ h2) hnv
      · have hcond : (s != "" && !visited.contains s) = true := by
          simp [List.elem_eq_mem, h1, h2]
        rw [hcond]
        simp only [if_true, Option.some.injEq, QEntry.mk.injEq]
        constructor
        · rintro ⟨rfl, rfl⟩
          exact ⟨rfl, h1, h2, rfl⟩
        · rintro ⟨hs, -, -, hl⟩
          exact ⟨hs, hl.symm⟩

theorem mem_newQueueEntries {choices : List Choice} {visited : List String}
    {level : Nat} {e : QEntry} :
    e ∈ newQueueEntries choices visited level ↔
      (∃ c ∈ choices, c.next = some e.id) ∧ e.id ≠ "" ∧ e.id ∉ visited ∧
        e.level = level + 1 := by
  simp only [newQueueEntries, List.mem_filterMap, enqueueEntry_eq_some]
  constructor
  · rintro ⟨c, hc, h1, h2, h3, h4⟩
    exact ⟨⟨c, hc, h1⟩, h2, h3, h4⟩
  · rintro ⟨⟨c, hc, h1⟩, h2, h3, h4⟩
    exact ⟨c, hc, h1, h2, h3, h4⟩

theorem contains_append_one (v : List String) (id x : String) :
    ((v ++ [id]).contains x) = (v.contains x || x == id) := by
  by_cases h1 : x ∈ v
  · simp [List.elem_eq_mem, h1]
  · by_cases h2 : x = id <;> simp [List.elem_eq_mem, h1, h2]

theorem lookupNode_isSome_iff (nodes : Nodes) (id : String) :
    (lookupNode nodes id).isSome ↔ id ∈ keys nodes := by
  induction nodes with
  | nil => simp [lookupNode, keys]
  | cons p rest ih =>
    by_cases h : p.1 = id
    · simp only [lookupNode]
      rw [List.find?_cons_of_pos _ (by simpa using h)]
      simp [keys, h]
    · simp only [lookupNode]
      rw [List.find?_cons_of_neg _ (by simpa using h)]
      simp only [lookupNode] at ih
      rw [ih]
      simp only [keys, List.map_cons, List.mem_cons]
      exact ⟨fun hx => Or.inr hx, fun hx => hx.resolve_left fun he => h he.symm⟩

theorem allIds_addToLevel (m : LevelMap) (lvl : Nat) (id : String) :
    List.Perm (allIds (addToLevel m lvl id)) (id :: allIds m) := by
  induction m with
  | nil => simp [addToLevel, allIds]
  | cons p rest ih =>
    obtain ⟨l, ids⟩ := p
    by_cases h1 : lvl < l
    · simp [addToLevel, h1, allIds]
    · by_cases h2 : lvl = l
      · simp only [addToLevel, if_neg h1, if_pos h2, allIds, List.map_cons,
          List.flatten_cons]
        have he : (ids ++ [id]) ++ (rest.map Prod.snd).flatten =
            ids ++ id :: (rest.map Prod.snd).flatten := by simp
        rw [he]
        exact List.perm_middle
      · simp only [addToLevel, if_neg h1, if_neg h2, allIds, List.map_cons,
          List.flatten_cons]
        have step : List.Perm (ids ++ allIds (addToLevel rest lvl id))
            (ids ++ id :: allIds rest) := List.Perm.append_left ids ih
        exact step.trans List.perm_middle

theorem mem_allIds_addToLevel {m : LevelMap} {lvl : Nat} {id a : String} :
    a ∈ allIds (addToLevel m lvl id) ↔ a = id ∨ a ∈ allIds m := by
  rw [(allIds_addToLevel m lvl id).mem_iff]
  simp

theorem bucketOf_addToLevel_of_ne {m : LevelMap} {lvl : Nat} {id x : String}
    (h : x ≠ id) : bucketOf (addToLevel m lvl id) x = bucketOf m x := by
  induction m with
  | nil =>
    simp only [addToLevel, bucketOf]
    rw [List.find?_cons_of_neg _ (by simpa using fun hx : x ∈ [id] => h (by simpa using hx))]
  | cons p rest ih =>
    obtain ⟨l, ids⟩ := p
    by_cases h1 : lvl < l
    · simp only [addToLevel, if_pos h1, bucketOf]
      rw [List.find?_cons_of_neg _ (by simpa using fun hx : x ∈ [id] => h (by simpa using hx))]
    · by_cases h2 : lvl = l
      · simp only [addToLevel, if_neg h1, if_pos h2, bucketOf]
        by_cases hm : x ∈ ids
        · rw [List.find?_cons_of_pos _ (by simp [hm]),
            List.find?_cons_of_pos _ (by simpa using hm)]
          rfl
        · rw [List.find?_cons_of_neg _ (by simp [hm, h]),
            List.find?_cons_of_neg _ (by simpa using hm)]
      · simp only [addToLevel, if_neg h1, if_neg h2, bucketOf]
        by_cases hm : x ∈ ids
        · rw [List.find?_cons_of_pos _ (by simpa using hm),
            List.find?_cons_of_pos _ (by simpa using hm)]
        · rw [List.find?_cons_of_neg _ (by simpa using hm),
            List.find?_cons_of_neg _ (by simpa using hm)]
          exact ih

theorem bucketOf_addToLevel_self {m : LevelMap} {lvl : Nat} {id : String}
    (h : id ∉ allIds m) : bucketOf (addToLevel m lvl id) id = some lvl := by
  induction m with
  | nil =>
    simp only [addToLevel, bucketOf]
    rw [List.find?_cons_of_pos _ (by simp)]
    rfl
  | cons p rest ih =>
    obtain ⟨l, ids⟩ := p
    have hids : id ∉ ids := fun hin => h (by simp [allIds, hin])
    have hrest : id ∉ allIds rest := by
      intro hin
      exact h (by simp only [allIds, List.map_cons, List.flatten_cons,
        List.mem_append]; right; exact hin)
    by_cases h1 : lvl < l
    · simp only [addToLevel, if_pos h1, bucketOf]
      rw [List.find?_cons_of_pos _ (by simp)]
      rfl
    · by_cases h2 : lvl = l
      · simp only [addToLevel, if_neg h1, if_pos h2, bucketOf]
        rw [List.find?_cons_of_pos _ (by simp)]
        simp [h2]
      · simp only [addToLevel, if_neg h1, if_neg h2, bucketOf]
        rw [List.find?_cons_of_neg _ (by simpa using hids)]
        exact ih hrest

theorem bucketOf_isSome_iff {m : LevelMap} {x : String} :
    (bucketOf m x).isSome ↔ x ∈ allIds m := by
  induction m with
  | nil => simp [bucketOf, allIds]
  | cons p rest ih =>
    obtain ⟨l, ids⟩ := p
    by_cases hm : x ∈ ids
    · simp only [bucketOf]
      rw [List.find?_cons_of_pos _ (by simpa using hm)]
      simp [allIds, hm]
    · simp only [bucketOf]
      rw [List.find?_cons_of_neg _ (by simpa using hm)]
      simp only [bucketOf] at ih
      rw [ih]
      simp only [allIds, List.map_cons, List.flatten_cons, List.mem_append]
      exact ⟨fun hx => Or.inr hx, fun hx => hx.resolve_left hm⟩

theorem bucketOf_mem {m : LevelMap} {x : String} {b : Nat}
    (h : bucketOf m x = some b) : ∃ ids, (b, ids) ∈ m ∧ x ∈ ids := by
  induction m with
  | nil => simp [bucketOf] at h
  | cons p rest ih =>
    obtain ⟨l, ids⟩ := p
    by_cases hm : x ∈ ids
    · simp only [bucketOf] at h
      rw [List.find?_cons_of_pos _ (by simpa using hm)] at h
      have hb : l = b := by simpa using h
      exact ⟨ids, by simp [hb], hm⟩
    · simp only [bucketOf] at h
      rw [List.find?_cons_of_neg _ (by simpa using hm)] at h
      obtain ⟨ids', hmem, hx⟩ := ih h
      exact ⟨ids', by simp [hmem], hx⟩

/-! ### Termination of the BFS loop: the fuel `bfsFuel` is sufficient -/

theorem remCapacity_mono (nodes : Nodes) (v : List String) (id : String) :
    remCapacity nodes (v ++ [id]) ≤ remCapacity nodes v := by
  induction nodes with
  | nil => simp [remCapacity]
  | cons p rest ih =>
    simp only [remCapacity, List.map_cons, List.sum_cons] at ih ⊢
    have hterm : (if (v ++ [id]).contains p.1 then 0 else p.2.choices.length) ≤
        (if v.contains p.1 then 0 else p.2.choices.length) := by
      rw [contains_append_one]
      by_cases hcv : p.1 ∈ v
      · simp [hcv, List.elem_eq_mem]
      · by_cases hbe : p.1 = id <;> simp [hcv, hbe, List.elem_eq_mem]
    omega

theorem remCapacity_visit {nodes : Nodes} {id : String} {node : Node}
    (hl : lookupNode nodes id = some node) {v : List String}
    (hv : v.contains id = false) :
    remCapacity nodes (v ++ [id]) + node.choices.length ≤ remCapacity nodes v := by
  induction nodes with
  | nil => simp [lookupNode] at hl
  | cons p rest ih =>
    simp only [remCapacity, List.map_cons, List.sum_cons]
    by_cases h : p.1 = id
    · have hp : p.2 = node := by
        simp only [lookupNode] at hl
        rw [List.find?_cons_of_pos _ (by simpa using h)] at hl
        simpa using hl
      have hc1 : ((v ++ [id]).contains p.1) = true := by
        rw [contains_append_one]
        simp [h]
      have hc2 : (v.contains p.1) = false := by rw [h]; exact hv
      have hmono := remCapacity_mono rest v id
      simp only [remCapacity] at hmono
      rw [hp] at *
      simp only [hc1, hc2, if_true, Bool.false_eq_true, if_false]
      omega
    · have hl' : lookupNode rest id = some node := by
        simp only [lookupNode] at hl
        rw [List.find?_cons_of_neg _ (by simpa using h)] at hl
        simpa [lookupNode] using hl
      have ihr := ih hl'
      simp only [remCapacity] at ihr
      have hterm : (if (v ++ [id]).contains p.1 then 0 else p.2.choices.length) ≤
          (if v.contains p.1 then 0 else p.2.choices.length) := by
        rw [contains_append_one]
        by_cases hcv : p.1 ∈ v
        · simp [hcv, List.elem_eq_mem]
        · by_cases hbe : p.1 = id <;> simp [hcv, hbe, List.elem_eq_mem]
      omega

theorem length_newQueueEntries_le (choices : List Choice) (visited : List String)
    (level : Nat) : (newQueueEntries choices visited level).length ≤ choices.length :=
  List.length_filterMap_le _ _

theorem bfsAux_isSome_of_fuel (nodes : Nodes) :
    ∀ fuel (q : List QEntry) (v : List String) (l : LevelMap),
      q.length + remCapacity nodes v ≤ fuel → (bfsAux nodes fuel q v l).isSome := by
  intro fuel
  induction fuel with
  | zero =>
    intro q v l h
    have : q = [] := by
      cases q with
      | nil => rfl
      | cons e rest => simp at h
    subst this
    simp [bfsAux]
  | succ n ih =>
    intro q v l h
    cases q with
    | nil => simp [bfsAux]
    | cons e rest =>
      obtain ⟨id, level⟩ := e
      simp only [bfsAux]
      by_cases hvis : v.contains id
      · simp only [hvis, if_true]
        apply ih
        simp only [List.length_cons] at h
        omega
      · simp only [hvis, Bool.false_eq_true, if_false]
        cases hl : lookupNode nodes id with
        | none =>
          apply ih
          simp only [List.length_cons] at h
          omega
        | some node =>
          apply ih
          have h1 := remCapacity_visit hl (v := v) (by simpa using hvis)
          have h2 := length_newQueueEntries_le node.choices (v ++ [id]) level
          simp only [List.length_append, List.length_cons] at h ⊢
          omega

theorem bfsAux_isSome (nodes : Nodes) (startNode : String) :
    (bfsAux nodes (bfsFuel nodes) [⟨startNode, 1⟩] [] []).isSome := by
  apply bfsAux_isSome_of_fuel
  have : remCapacity nodes [] = (nodes.map (fun p => p.2.choices.length)).sum := by
    simp [remCapacity]
  simp [bfsFuel, this]

/-! ### The partition invariant of the BFS phase -/

theorem bfsAux_inv (nodes : Nodes) :
    ∀ fuel (q : List QEntry) (v : List String) (l : LevelMap) lv v',
      bfsAux nodes fuel q v l = some (lv, v') →
      List.Perm (allIds l) v → v.Nodup → (∀ id ∈ v, id ∈ keys nodes) →
      List.Perm (allIds lv) v' ∧ v'.Nodup ∧ (∀ id ∈ v', id ∈ keys nodes) ∧
        (∀ id ∈ v, id ∈ v') := by
  intro fuel
  induction fuel with
  | zero =>
    intro q v l lv v' hrun hperm hnd hkeys
    cases q with
    | nil =>
      simp only [bfsAux, Option.some.injEq, Prod.mk.injEq] at hrun
      obtain ⟨h1, h2⟩ := hrun
      subst h1; subst h2
      exact ⟨hperm, hnd, hkeys, fun id h => h⟩
    | cons e rest => simp [bfsAux] at hrun
  | succ n ih =>
    intro q v l lv v' hrun hperm hnd hkeys
    cases q with
    | nil =>
      simp only [bfsAux, Option.some.injEq, Prod.mk.injEq] at hrun
      obtain ⟨h1, h2⟩ := hrun
      subst h1; subst h2
      exact ⟨hperm, hnd, hkeys, fun id h => h⟩
    | cons e rest =>
      obtain ⟨id, level⟩ := e
      simp only [bfsAux] at hrun
      by_cases hvis : v.contains id
      · simp only [hvis, if_true] at hrun
        exact ih rest v l lv v' hrun hperm hnd hkeys
      · simp only [hvis, Bool.false_eq_true, if_false] at hrun
        cases hl : lookupNode nodes id with
        | none =>
          rw [hl] at hrun
          exact ih rest v l lv v' hrun hperm hnd hkeys
        | some node =>
          rw [hl] at hrun
          have hidmem : id ∈ keys nodes := by
            rw [← lookupNode_isSome_iff]
            simp [hl]
          have hidnv : id ∉ v := by simpa using hvis
          have hperm' : List.Perm (allIds (addToLevel l level id)) (v ++ [id]) :=
            ((allIds_addToLevel l level id).trans (hperm.cons id)).trans
              (List.perm_append_singleton id v).symm
          have hnd' : (v ++ [id]).Nodup := by
            simp [List.nodup_append, hnd, hidnv]
          have hkeys' : ∀ x ∈ v ++ [id], x ∈ keys nodes := by
            intro x hx
            rcases List.mem_append.mp hx with hx | hx
            · exact hkeys x hx
            · simp at hx; subst hx; exact hidmem
          obtain ⟨a, b, c, d⟩ := ih _ _ _ lv v' hrun hperm' hnd' hkeys'
          refine ⟨a, b, c, fun x hx => d x ?_⟩
          simp [hx]

/-! ### The orphan pass and the partition property -/

theorem allIds_orphanFold (visited : List String) (ks : List String) :
    ∀ l : LevelMap,
      List.Perm
        (allIds (ks.foldl
          (fun lv id => if visited.contains id then lv else addToLevel lv 0 id) l))
        (allIds l ++ ks.filter (fun id => !visited.contains id)) := by
  induction ks with
  | nil => intro l; simp
  | cons k ks ih =>
    intro l
    simp only [List.foldl_cons, List.filter_cons]
    by_cases h : visited.contains k
    · simp only [h, if_true, Bool.not_true, Bool.false_eq_true, if_false]
      exact ih l
    · simp only [h, Bool.false_eq_true, if_false, Bool.not_false, if_true]
      refine (ih (addToLevel l 0 k)).trans ?_
      refine (((allIds_addToLevel l 0 k).append_right _).trans ?_)
      exact List.perm_middle.symm

theorem calculateNodeLevels_partition (nodes : Nodes) (startNode : String)
    (hnd : (keys nodes).Nodup) :
    (allIds (calculateNodeLevels nodes startNode)).Nodup ∧
      ∀ id, id ∈ allIds (calculateNodeLevels nodes startNode) ↔ id ∈ keys nodes := by
  obtain ⟨r, hr⟩ := Option.isSome_iff_exists.mp (bfsAux_isSome nodes startNode)
  obtain ⟨lv, v'⟩ := r
  obtain ⟨hperm, hndv, hkeysv, -⟩ :=
    bfsAux_inv nodes (bfsFuel nodes) [⟨startNode, 1⟩] [] [] lv v' hr
      (by simp [allIds]) (by simp) (by simp)
  have hcalc : calculateNodeLevels nodes startNode =
      (keys nodes).foldl
        (fun lv id => if v'.contains id then lv else addToLevel lv 0 id) lv := by
    simp only [calculateNodeLevels, hr]
  have hfold := allIds_orphanFold v' (keys nodes) lv
  have hperm2 : List.Perm (allIds (calculateNodeLevels nodes startNode))
      (v' ++ (keys nodes).filter (fun id => !v'.contains id)) := by
    rw [hcalc]
    exact hfold.trans (hperm.append_right _)
  have hmemfilter : ∀ x, x ∈ (keys nodes).filter (fun id => !v'.contains id) ↔
      (x ∈ keys nodes ∧ x ∉ v') := by
    intro x
    rw [List.mem_filter]
    simp [List.elem_eq_mem]
  constructor
  · refine hperm2.symm.nodup ?_
    refine List.Nodup.append hndv (hnd.filter _) ?_
    intro a ha hb
    exact ((hmemfilter a).mp hb).2 ha
  · intro id
    rw [hperm2.mem_iff, List.mem_append, hmemfilter]
    constructor
    · rintro (h | ⟨h, -⟩)
      · exact hkeysv id h
      · exact h
    · intro h
      by_cases hv : id ∈ v'
      · exact Or.inl hv
      · exact Or.inr ⟨h, hv⟩

/-- C1: for every node mapping (with the JS-guaranteed unique keys) and every
startNode, every key of the mapping appears in exactly one bucket of
`calculateNodeLevels` and exactly once within it (the concatenation of all
buckets has no duplicates and is exactly the key set), and ids that are not
keys of the mapping — e.g. pure dangling choice targets — appear in no
bucket. -/
theorem c1_level_partition (nodes : Nodes) (startNode : String)
    (hnd : (keys nodes).Nodup) :
    (allIds (calculateNodeLevels nodes startNode)).Nodup ∧
      ∀ id, id ∈ allIds (calculateNodeLevels nodes startNode) ↔ id ∈ keys nodes :=
  calculateNodeLevels_partition nodes startNode hnd

/-- Witness for C1 at the specification's four-node example. -/
theorem c1_level_partition_witness :
    (keys exNodesABCD).Nodup ∧
      ((allIds (calculateNodeLevels exNodesABCD "A")).Nodup ∧
        ∀ id, id ∈ allIds (calculateNodeLevels exNodesABCD "A") ↔
          id ∈ keys exNodesABCD) :=
  ⟨by decide, c1_level_partition exNodesABCD "A" (by decide)⟩

/-- C3: for every node mapping and startNode — cyclic graphs and self-loops
included — the BFS loop of `calculateNodeLevels` exhausts its queue within
the `bfsFuel` bound (`isSome` holds exactly when the queue emptied), and,
under the JS-guaranteed key uniqueness, each node id is appended to a level
bucket at most once. -/
theorem c3_bfs_terminates (nodes : Nodes) (startNode : String) :
    (bfsAux nodes (bfsFuel nodes) [⟨startNode, 1⟩] [] []).isSome ∧
      ((keys nodes).Nodup →
        ∀ id, (allIds (calculateNodeLevels nodes startNode)).count id ≤ 1) :=
  ⟨bfsAux_isSome nodes startNode,
   fun hnd id => List.nodup_iff_count_le_one.mp
     (calculateNodeLevels_partition nodes startNode hnd).1 id⟩

/-- Witness for C3 at a cyclic graph with a self-loop. -/
theorem c3_bfs_terminates_witness :
    (keys exNodesCyc).Nodup ∧
      ((bfsAux exNodesCyc (bfsFuel exNodesCyc) [⟨"A", 1⟩] [] []).isSome ∧
        ∀ id, (allIds (calculateNodeLevels exNodesCyc "A")).count id ≤ 1) :=
  ⟨by decide,
   (c3_bfs_terminates exNodesCyc "A").1,
   fun id => (c3_bfs_terminates exNodesCyc "A").2 (by decide) id⟩

/-- C9 counterexample: when the self-loop node `A` is processed at level 1,
the visited set already contains `A` (the source adds the node to `visited`
before scanning its choices), so the enqueue computation emits no entry —
in particular it does not enqueue `{id: "A", level: 2}`, contradicting the
claim that a self-loop target is enqueued at level+1 and only discarded at
its dequeue. -/
theorem c9_counterexample :
    QEntry.mk "A" 2 ∉ newQueueEntries [⟨some "A"⟩] ["A"] 1 := by decide

/-- C9 (amended): a node is marked visited before its own choices are
scanned, so a choice pointing back to the node being processed is filtered
out at enqueue time — the node never re-enqueues itself at level+1.  The
self-loop is a no-op: the BFS still exhausts its queue within the fuel
bound and, under key uniqueness, the node is still bucketed at most once. -/
theorem c9_self_loop_noop (nodes : Nodes) (startNode id : String) (node : Node)
    (_hlook : lookupNode nodes id = some node)
    (_hself : Choice.mk (some id) ∈ node.choices) :
    (∀ (level : Nat) (visited : List String), id ∈ visited →
        QEntry.mk id (level + 1) ∉ newQueueEntries node.choices visited level) ∧
      (bfsAux nodes (bfsFuel nodes) [⟨startNode, 1⟩] [] []).isSome ∧
      ((keys nodes).Nodup →
        (allIds (calculateNodeLevels nodes startNode)).count id ≤ 1) := by
  refine ⟨?_, bfsAux_isSome nodes startNode,
    fun hnd => List.nodup_iff_count_le_one.mp
      (calculateNodeLevels_partition nodes startNode hnd).1 id⟩
  intro level visited hvis hmem
  rw [mem_newQueueEntries] at hmem
  exact hmem.2.2.1 hvis

/-- C4 counterexample: node `A` has the non-numeric, non-empty explicit
level `"abc"`; its computed BFS level is 1, yet `getEffectiveLevel` does not
fall through to it — it returns `parseInt("abc")`, i.e. `NaN` (`none`),
contradicting the claim that a non-numeric override is treated as unset. -/
theorem c4_counterexample :
    bucketOf (calculateNodeLevels exNaNNodes "A") "A" = some 1 ∧
      getEffectiveLevel "A" exNaNNodes "A" none = none ∧
      getEffectiveLevel "A" exNaNNodes "A" none ≠ some 1 := by decide

/-- C4 (amended): if the node's explicit level field is present and not the
empty string, `getEffectiveLevel` returns `parseInt` of it verbatim — any
integer, including negative values, with no clamping — and `NaN` (`none`)
when no digits parse; only an absent, `null`, or empty-string level falls
through to the computed level: the key of the first bucket of the (supplied
or freshly computed) level map containing the node, or 0 when the node
appears in no bucket. -/
theorem c4_effective_level (nodeId : String) (nodes : Nodes) (startNode : String)
    (levelsMap : Option LevelMap) :
    (∀ node lv, lookupNode nodes nodeId = some node → node.level = some lv →
      lv ≠ LevelVal.str "" →
      getEffectiveLevel nodeId nodes startNode levelsMap = parseIntOfLevel lv) ∧
    (((lookupNode nodes nodeId).bind Node.level = none ∨
        (lookupNode nodes nodeId).bind Node.level = some (LevelVal.str "")) →
      ((∀ b, bucketOf (levelsMap.getD (calculateNodeLevels nodes startNode)) nodeId =
          some b →
          getEffectiveLevel nodeId nodes startNode levelsMap = some (b : Int)) ∧
        (bucketOf (levelsMap.getD (calculateNodeLevels nodes startNode)) nodeId =
            none →
          getEffectiveLevel nodeId nodes startNode levelsMap = some 0))) := by
  constructor
  · intro node lv hlook hlv hne
    have hb : (lookupNode nodes nodeId).bind Node.level = some lv := by
      rw [hlook]
      exact hlv
    simp only [getEffectiveLevel, hb, if_neg hne]
  · intro hunset
    have hcomputed : getEffectiveLevel nodeId nodes startNode levelsMap =
        some (computedLevel nodeId nodes startNode levelsMap) := by
      rcases hunset with h | h
      · simp only [getEffectiveLevel, h]
      · simp [getEffectiveLevel, h]
    constructor
    · intro b hb
      rw [hcomputed]
      simp only [computedLevel, hb]
    · intro hb
      rw [hcomputed]
      simp only [computedLevel, hb]

/-- Witness for C4 (amended): the negative override `-3` on node `B` is
returned verbatim. -/
theorem c4_effective_level_witness :
    lookupNode exNegOvNodes "B" = some ⟨[], some (.num (-3))⟩ ∧
      Node.level ⟨[], some (.num (-3))⟩ = some (.num (-3)) ∧
      (LevelVal.num (-3) ≠ LevelVal.str "") ∧
      getEffectiveLevel "B" exNegOvNodes "A" none =
        parseIntOfLevel (.num (-3)) :=
  ⟨by decide, by decide, by decide,
   (c4_effective_level "B" exNegOvNodes "A" none).1 ⟨[], some (.num (-3))⟩
     (.num (-3)) (by decide) (by decide) (by decide)⟩

theorem findInLevels_eq_none {lm : LevelMap} {nodeId : String}
    (h : nodeId ∉ allIds lm) : findInLevels lm nodeId = none := by
  induction lm with
  | nil => rfl
  | cons p rest ih =>
    obtain ⟨lvl, ids⟩ := p
    have h1 : nodeId ∉ ids := fun hin => h (by simp [allIds, hin])
    have h2 : nodeId ∉ allIds rest := by
      intro hin
      exact h (by simp only [allIds, List.map_cons, List.flatten_cons,
        List.mem_append]; right; exact hin)
    simp only [findInLevels]
    rw [if_neg (by simpa using h1)]
    exact ih h2

theorem findInLevels_first {pre : LevelMap} {lvl : Nat} {ids : List String}
    (post : LevelMap) {nodeId : String}
    (hpre : nodeId ∉ allIds pre) (hin : nodeId ∈ ids) :
    findInLevels (pre ++ (lvl, ids) :: post) nodeId =
      some (lvl, ids.indexOf nodeId + 1) := by
  induction pre with
  | nil =>
    simp only [List.nil_append, findInLevels]
    rw [if_pos (by simpa using hin)]
  | cons p rest ih =>
    obtain ⟨l', ids'⟩ := p
    have h1 : nodeId ∉ ids' := fun hx => hpre (by simp [allIds, hx])
    have h2 : nodeId ∉ allIds rest := by
      intro hx
      exact hpre (by simp only [allIds, List.map_cons, List.flatten_cons,
        List.mem_append]; right; exact hx)
    simp only [List.cons_append, findInLevels]
    rw [if_neg (by simpa using h1)]
    exact ih h2

/-- C10: with a caller-supplied levels map, `getNodeLevel` performs a direct
lookup: the result is independent of the node mapping and start node (so no
explicit level override is consulted); it returns the key of the first
bucket (in enumeration order) containing the node together with the node's
1-based index in that bucket; and `{level: 0, position: 1}` when no bucket
contains the node. -/
theorem c10_getNodeLevel_direct (nodeId : String) (lm : LevelMap) :
    (∀ (nodes nodes' : Nodes) (s s' : String),
      getNodeLevel nodeId nodes s (some lm) =
        getNodeLevel nodeId nodes' s' (some lm)) ∧
    (∀ (pre post : LevelMap) (lvl : Nat) (ids : List String),
      lm = pre ++ (lvl, ids) :: post → nodeId ∉ allIds pre → nodeId ∈ ids →
      ∀ (nodes : Nodes) (s : String),
        getNodeLevel nodeId nodes s (some lm) =
          ⟨some (lvl : Int), (ids.indexOf nodeId : Int) + 1⟩) ∧
    (nodeId ∉ allIds lm →
      ∀ (nodes : Nodes) (s : String),
        getNodeLevel nodeId nodes s (some lm) = ⟨some 0, 1⟩) := by
  refine ⟨fun nodes nodes' s s' => rfl, ?_, ?_⟩
  · intro pre post lvl ids hlm hpre hin nodes s
    subst hlm
    simp only [getNodeLevel, findInLevels_first post hpre hin]
    norm_cast
  · intro hnot nodes s
    simp only [getNodeLevel, findInLevels_eq_none hnot]

/-- Witness for C10: `C` sits in the second bucket at 1-based position 2; a
missing id gives `{level: 0, position: 1}`; the node mapping passed in (with
an explicit override on `B`) is ignored. -/
theorem c10_getNodeLevel_direct_witness :
    (exLevelsMapC10 = [(1, ["A"])] ++ (2, ["B", "C"]) :: []) ∧
      "C" ∉ allIds [(1, ["A"])] ∧ "C" ∈ ["B", "C"] ∧
      getNodeLevel "C" exNegOvNodes "A" (some exLevelsMapC10) =
        ⟨some 2, (["B", "C"].indexOf "C" : Int) + 1⟩ ∧
      "Z" ∉ allIds exLevelsMapC10 ∧
      getNodeLevel "Z" [] "A" (some exLevelsMapC10) = ⟨some 0, 1⟩ := by
  refine ⟨by decide, by decide, by decide, ?_, by decide, ?_⟩
  · exact (c10_getNodeLevel_direct "C" exLevelsMapC10).2.1 [(1, ["A"])] []
      2 ["B", "C"] (by decide) (by decide) (by decide) exNegOvNodes "A"
  · exact (c10_getNodeLevel_direct "Z" exLevelsMapC10).2.2 (by decide) [] "A"

/-- C6: the path built by `getConnectionPath` always starts at the source's
bottom-edge anchor `(from.x, from.y + nodeHeight/2)` and ends at the
target's top-edge anchor `(to.x, to.y - nodeHeight/2)`, regardless of the
loop/same-level classification; and it is a straight segment
(`type: 'line'`) exactly when the connection is neither a loop nor
same-level, otherwise a quadratic Bézier (`type: 'bezier'`). -/
theorem c6_connection_anchors (conn : Conn) (nodeHeight : ℚ) :
    pathStart (getConnectionPath conn nodeHeight) =
      (conn.from_.x, conn.from_.y + nodeHeight / 2) ∧
    pathEnd (getConnectionPath conn nodeHeight) =
      (conn.to_.x, conn.to_.y - nodeHeight / 2) ∧
    (isLineType (getConnectionPath conn nodeHeight) = true ↔
      conn.isLoop = false ∧ conn.isSameLevel = false) := by
  rcases conn with ⟨f, t, il, isl⟩
  cases il <;> cases isl <;>
    simp [getConnectionPath, pathStart, pathEnd, isLineType]

/-- C7: for a loop or same-level connection the quadratic control point is:
cx = the anchors' x midpoint plus the curve offset (amplified by 3/2 and
scaled from the vertical center distance for loops, the fixed 50 for
same-level) times the direction (+1 when x1 ≤ x2, else −1); cy =
min(y1, y2) − 30 when the target center is strictly above the source
center, else the anchors' vertical midpoint. -/
theorem c7_curve_control_point (conn : Conn) (nodeHeight : ℚ)
    (h : conn.isLoop = true ∨ conn.isSameLevel = true) :
    getConnectionPath conn nodeHeight =
      PathGeometry.bezier conn.from_.x (conn.from_.y + nodeHeight / 2)
        conn.to_.x (conn.to_.y - nodeHeight / 2)
        ((conn.from_.x + conn.to_.x) / 2 +
          (if conn.isLoop then
              (3 / 2) * max 80 (|conn.from_.y - conn.to_.y| * (3 / 10) + 60)
            else 50) *
            (if conn.from_.x ≤ conn.to_.x then (1 : ℚ) else -1))
        (if conn.to_.y < conn.from_.y then
            min (conn.from_.y + nodeHeight / 2) (conn.to_.y - nodeHeight / 2) - 30
          else
            ((conn.from_.y + nodeHeight / 2) + (conn.to_.y - nodeHeight / 2)) / 2) := by
  rcases conn with ⟨f, t, il, isl⟩
  have hcond : (!il && !isl) = false := by
    rcases h with h | h <;> simp_all
  simp only [getConnectionPath, hcond, Bool.false_eq_true, if_false]
  cases il <;>
    simp only [if_true, if_false, Bool.false_eq_true, Bool.true_eq_false] <;>
    by_cases hdir : f.x ≤ t.x <;> by_cases hb : t.y < f.y <;>
    simp [hdir, hb, mul_comm]

/-- Witness for C7 at the loop connection from `(100, 220)` up to
`(100, 100)` with `nodeHeight = 44`. -/
theorem c7_curve_control_point_witness :
    (Conn.mk ⟨100, 220⟩ ⟨100, 100⟩ true false).isLoop = true ∧
      getConnectionPath (Conn.mk ⟨100, 220⟩ ⟨100, 100⟩ true false) 44 =
        PathGeometry.bezier 100 242 100 78 244 48 := by
  refine ⟨rfl, ?_⟩
  have h := c7_curve_control_point (Conn.mk ⟨100, 220⟩ ⟨100, 100⟩ true false) 44
    (Or.inl rfl)
  rw [h]
  norm_num

/-- C8: for a line geometry, `getArrowPosition` returns the exact arithmetic
midpoint of the endpoints and the angle `atan2(y2−y1, x2−x1)` in degrees;
for a bezier geometry it returns exactly the quadratic Bézier point at
parameter `t = 1/2` and the angle of the Bézier derivative there, in
degrees. -/
theorem c8_arrow_position :
    (∀ x1 y1 x2 y2 : ℝ,
      getArrowPosition (.line x1 y1 x2 y2) =
        ⟨(x1 + x2) / 2, (y1 + y2) / 2,
         jsAtan2 (y2 - y1) (x2 - x1) * 180 / Real.pi⟩) ∧
    (∀ x1 y1 x2 y2 cx cy : ℝ,
      getArrowPosition (.bezier x1 y1 x2 y2 cx cy) =
        ⟨(bezierPoint (1 / 2) (x1, y1) (cx, cy) (x2, y2)).1,
         (bezierPoint (1 / 2) (x1, y1) (cx, cy) (x2, y2)).2,
         jsAtan2 (bezierDeriv (1 / 2) (x1, y1) (cx, cy) (x2, y2)).2
             (bezierDeriv (1 / 2) (x1, y1) (cx, cy) (x2, y2)).1 * 180 /
           Real.pi⟩) := by
  constructor
  · intro x1 y1 x2 y2
    rfl
  · intro x1 y1 x2 y2 cx cy
    simp only [getArrowPosition, bezierPoint, bezierDeriv]
    congr 1 <;> try ring

/-! ### The grouping pass of `calculateAutoPositions` -/

theorem allGroupIds_addToGroup (gs : List (Option Int × List String))
    (k : Option Int) (id : String) :
    List.Perm (allGroupIds (addToGroup gs k id)) (id :: allGroupIds gs) := by
  induction gs with
  | nil => simp [addToGroup, allGroupIds]
  | cons p rest ih =>
    obtain ⟨k', ids'⟩ := p
    by_cases h : k' = k
    · simp only [addToGroup, if_pos h, allGroupIds, List.map_cons, List.flatten_cons]
      have he : (ids' ++ [id]) ++ (rest.map Prod.snd).flatten =
          ids' ++ id :: (rest.map Prod.snd).flatten := by simp
      rw [he]
      exact List.perm_middle
    · simp only [addToGroup, if_neg h, allGroupIds, List.map_cons, List.flatten_cons]
      have step : List.Perm (ids' ++ allGroupIds (addToGroup rest k id))
          (ids' ++ id :: allGroupIds rest) := List.Perm.append_left ids' ih
      exact step.trans List.perm_middle

theorem allGroupIds_groupFold (e : String → Option Int) (ks : List String) :
    ∀ gs, List.Perm
      (allGroupIds (ks.foldl (fun gs id => addToGroup gs (e id) id) gs))
      (allGroupIds gs ++ ks) := by
  induction ks with
  | nil => intro gs; simp
  | cons k ks ih =>
    intro gs
    simp only [List.foldl_cons]
    refine (ih (addToGroup gs (e k) k)).trans ?_
    refine ((allGroupIds_addToGroup gs (e k) k).append_right ks).trans ?_
    exact List.perm_middle.symm

theorem addToGroup_key {e : String → Option Int}
    {gs : List (Option Int × List String)} {k : Option Int} {id : String}
    (hgs : ∀ p ∈ gs, ∀ x ∈ p.2, e x = p.1) (hk : e id = k) :
    ∀ p ∈ addToGroup gs k id, ∀ x ∈ p.2, e x = p.1 := by
  induction gs with
  | nil =>
    intro p hp x hx
    simp only [addToGroup, List.mem_singleton] at hp
    subst hp
    simp only [List.mem_singleton] at hx
    subst hx
    exact hk
  | cons q rest ih =>
    obtain ⟨k', ids'⟩ := q
    intro p hp x hx
    by_cases h : k' = k
    · simp only [addToGroup, if_pos h, List.mem_cons] at hp
      rcases hp with hp | hp
      · subst hp
        simp only [List.mem_append, List.mem_singleton] at hx
        rcases hx with hx | hx
        · exact hgs (k', ids') (by simp) x hx
        · subst hx
          rw [hk, h]
      · exact hgs p (by simp [hp]) x hx
    · simp only [addToGroup, if_neg h, List.mem_cons] at hp
      rcases hp with hp | hp
      · subst hp
        exact hgs (k', ids') (by simp) x hx
      · exact ih (fun q hq y hy => hgs q (by simp [hq]) y hy) p hp x hx

theorem groupFold_key (e : String → Option Int) (ks : List String) :
    ∀ gs, (∀ p ∈ gs, ∀ x ∈ p.2, e x = p.1) →
      ∀ p ∈ ks.foldl (fun gs id => addToGroup gs (e id) id) gs,
        ∀ x ∈ p.2, e x = p.1 := by
  induction ks with
  | nil => intro gs h; exact h
  | cons k ks ih =>
    intro gs h
    simp only [List.foldl_cons]
    exact ih (addToGroup gs (e k) k) (addToGroup_key h rfl)

theorem keys_addToGroup (gs : List (Option Int × List String)) (k : Option Int)
    (id : String) :
    (addToGroup gs k id).map Prod.fst =
      if k ∈ gs.map Prod.fst then gs.map Prod.fst else gs.map Prod.fst ++ [k] := by
  induction gs with
  | nil => simp [addToGroup]
  | cons p rest ih =>
    obtain ⟨k', ids'⟩ := p
    by_cases h : k' = k
    · simp [addToGroup, h]
    · simp only [addToGroup, if_neg h, List.map_cons, ih]
      have : (k ∈ k' :: rest.map Prod.fst) ↔ (k ∈ rest.map Prod.fst) := by
        simp [List.mem_cons]
        intro hk
        exact absurd hk.symm h
      by_cases hm : k ∈ rest.map Prod.fst
      · simp [hm, this]
      · simp [hm, this]

theorem groupFold_keys_nodup (e : String → Option Int) (ks : List String) :
    ∀ gs, ((gs.map Prod.fst) : List (Option Int)).Nodup →
      ((ks.foldl (fun gs id => addToGroup gs (e id) id) gs).map Prod.fst).Nodup := by
  induction ks with
  | nil => intro gs h; exact h
  | cons k ks ih =>
    intro gs h
    simp only [List.foldl_cons]
    refine ih (addToGroup gs (e k) k) ?_
    rw [keys_addToGroup]
    by_cases hm : e k ∈ gs.map Prod.fst
    · simp [hm, h]
    · simp only [hm, if_false]
      refine List.Nodup.append h (List.nodup_singleton _) ?_
      intro a ha hb
      simp only [List.mem_singleton] at hb
      exact hm (hb ▸ ha)

theorem snd_eq_of_nodup_keys {gs : List (Option Int × List String)}
    (h : (gs.map Prod.fst).Nodup) {k : Option Int} {i1 i2 : List String}
    (h1 : (k, i1) ∈ gs) (h2 : (k, i2) ∈ gs) : i1 = i2 := by
  induction gs with
  | nil => simp at h1
  | cons p rest ih =>
    simp only [List.map_cons, List.nodup_cons] at h
    simp only [List.mem_cons] at h1 h2
    rcases h1 with h1 | h1 <;> rcases h2 with h2 | h2
    · exact (Prod.ext_iff.mp (h1.trans h2.symm)).2
    · exfalso
      apply h.1
      rw [← h1]
      simpa using List.mem_map_of_mem Prod.fst h2
    · exfalso
      apply h.1
      rw [← h2]
      simpa using List.mem_map_of_mem Prod.fst h1
    · exact ih h.2 h1 h2

theorem foldl_append_eq_flatten {α β : Type} (h : α → List β) (gs : List α) :
    ∀ ps : List β, gs.foldl (fun ps g => ps ++ h g) ps = ps ++ (gs.map h).flatten := by
  induction gs with
  | nil => intro ps; simp
  | cons g gs ih =>
    intro ps
    simp only [List.foldl_cons, List.map_cons, List.flatten_cons, ih,
      List.append_assoc]

theorem mem_of_getElem?_strings {l : List String} {i : Nat} {a : String}
    (h : l[i]? = some a) : a ∈ l := by
  obtain ⟨hi, he⟩ := List.getElem?_eq_some.mp h
  exact he ▸ List.getElem_mem hi

theorem calculateAutoPositions_positions (nodes : Nodes) (startNode : String)
    (lc : Option LayoutConfig) :
    (calculateAutoPositions nodes startNode lc).positions =
      ((levelGroupsOf nodes startNode (calculateNodeLevels nodes startNode)).map
        (groupPositions (lc.getD defaultLayout)
          (maxWidthOf (lc.getD defaultLayout)
            (levelGroupsOf nodes startNode
              (calculateNodeLevels nodes startNode))))).flatten := by
  simp only [calculateAutoPositions]
  rw [foldl_append_eq_flatten]
  simp

theorem map_fst_groupPositions (config : LayoutConfig) (maxW : ℚ)
    (g : Option Int × List String) :
    (groupPositions config maxW g).map Prod.fst = g.2 := by
  simp only [groupPositions, List.map_map]
  exact List.enum_map_snd g.2

theorem mem_groupPositions {config : LayoutConfig} {maxW : ℚ}
    {g : Option Int × List String} {a : String} {pa : NodePos} :
    (a, pa) ∈ groupPositions config maxW g ↔
      ∃ i : Nat, g.2[i]? = some a ∧
        pa = ⟨(maxW - (g.2.length : ℚ) * config.nodeWidth) / 2 +
                config.nodeWidth / 2 + (i : ℚ) * config.nodeWidth + config.padding,
              g.1.map (fun k => (k : ℚ) * config.levelHeight + config.padding)⟩ := by
  simp only [groupPositions, List.mem_map]
  constructor
  · rintro ⟨ie, hmem, heq⟩
    obtain ⟨i, s⟩ := ie
    rw [List.mem_enum_iff_getElem?] at hmem
    have hs : s = a := congrArg Prod.fst heq
    have hp : pa = _ := (congrArg Prod.snd heq).symm
    exact ⟨i, hs ▸ hmem, hp⟩
  · rintro ⟨i, hget, hp⟩
    refine ⟨(i, a), List.mem_enum_iff_getElem?.mpr hget, ?_⟩
    rw [hp]

theorem levelGroupsOf_eq_fold (nodes : Nodes) (startNode : String) :
    levelGroupsOf nodes startNode (calculateNodeLevels nodes startNode) =
      (keys nodes).foldl
        (fun gs id => addToGroup gs (effLevelFn nodes startNode id) id) [] := rfl

theorem group_key_eq (nodes : Nodes) (startNode : String) :
    ∀ g ∈ levelGroupsOf nodes startNode (calculateNodeLevels nodes startNode),
      ∀ x ∈ g.2, effLevelFn nodes startNode x = g.1 := by
  rw [levelGroupsOf_eq_fold]
  exact groupFold_key (effLevelFn nodes startNode) (keys nodes) [] (by simp)

theorem group_keys_nodup (nodes : Nodes) (startNode : String) :
    ((levelGroupsOf nodes startNode (calculateNodeLevels nodes startNode)).map
      Prod.fst).Nodup := by
  rw [levelGroupsOf_eq_fold]
  exact groupFold_keys_nodup (effLevelFn nodes startNode) (keys nodes) [] (by simp)

theorem allGroupIds_perm_keys (nodes : Nodes) (startNode : String) :
    List.Perm
      (allGroupIds (levelGroupsOf nodes startNode (calculateNodeLevels nodes startNode)))
      (keys nodes) := by
  rw [levelGroupsOf_eq_fold]
  have h := allGroupIds_groupFold (effLevelFn nodes startNode) (keys nodes) []
  simpa [allGroupIds] using h

theorem positions_map_fst (nodes : Nodes) (startNode : String)
    (lc : Option LayoutConfig) :
    (calculateAutoPositions nodes startNode lc).positions.map Prod.fst =
      allGroupIds (levelGroupsOf nodes startNode (calculateNodeLevels nodes startNode)) := by
  rw [calculateAutoPositions_positions, List.map_flatten, List.map_map]
  unfold allGroupIds
  congr 1
  apply List.map_congr_left
  intro g hg
  exact map_fst_groupPositions _ _ g

theorem positions_decomp {nodes : Nodes} {startNode : String}
    {lc : Option LayoutConfig} {a : String} {pa : NodePos}
    (h : (a, pa) ∈ (calculateAutoPositions nodes startNode lc).positions) :
    ∃ g ∈ levelGroupsOf nodes startNode (calculateNodeLevels nodes startNode),
      ∃ i : Nat, g.2[i]? = some a ∧
        pa = ⟨(maxWidthOf (lc.getD defaultLayout)
                  (levelGroupsOf nodes startNode (calculateNodeLevels nodes startNode)) -
                (g.2.length : ℚ) * (lc.getD defaultLayout).nodeWidth) / 2 +
                (lc.getD defaultLayout).nodeWidth / 2 +
                (i : ℚ) * (lc.getD defaultLayout).nodeWidth +
                (lc.getD defaultLayout).padding,
              g.1.map (fun k =>
                (k : ℚ) * (lc.getD defaultLayout).levelHeight +
                  (lc.getD defaultLayout).padding)⟩ := by
  rw [calculateAutoPositions_positions, List.mem_flatten] at h
  obtain ⟨l, hl, hx⟩ := h
  rw [List.mem_map] at hl
  obtain ⟨g, hg, rfl⟩ := hl
  rw [mem_groupPositions] at hx
  obtain ⟨i, hi, hp⟩ := hx
  exact ⟨g, hg, i, hi, hp⟩

/-- C5 (amended): for a layout configuration with a nonzero `nodeWidth` and
positive `levelHeight` (the defaults qualify) and the JS-guaranteed unique
keys: every key of the mapping receives exactly one position; two distinct
nodes with the same effective level get distinct x coordinates; and y is
strictly monotone in (numeric) effective level, with equal y exactly for
equal effective levels. -/
theorem c5_auto_positions (nodes : Nodes) (startNode : String)
    (layoutConfig : Option LayoutConfig) (hnd : (keys nodes).Nodup)
    (hW : (layoutConfig.getD defaultLayout).nodeWidth ≠ 0)
    (hH : 0 < (layoutConfig.getD defaultLayout).levelHeight) :
    (((calculateAutoPositions nodes startNode layoutConfig).positions.map
        Prod.fst).Nodup ∧
      ∀ id,
        id ∈ (calculateAutoPositions nodes startNode layoutConfig).positions.map
            Prod.fst ↔ id ∈ keys nodes) ∧
    (∀ a b pa pb,
      (a, pa) ∈ (calculateAutoPositions nodes startNode layoutConfig).positions →
      (b, pb) ∈ (calculateAutoPositions nodes startNode layoutConfig).positions →
      a ≠ b → effLevelFn nodes startNode a = effLevelFn nodes startNode b →
      pa.x ≠ pb.x) ∧
    (∀ a b pa pb la lb,
      (a, pa) ∈ (calculateAutoPositions nodes startNode layoutConfig).positions →
      (b, pb) ∈ (calculateAutoPositions nodes startNode layoutConfig).positions →
      effLevelFn nodes startNode a = some la →
      effLevelFn nodes startNode b = some lb →
      (la < lb → ∃ ya yb, pa.y = some ya ∧ pb.y = some yb ∧ ya < yb) ∧
      (la = lb → pa.y = pb.y)) := by
  refine ⟨⟨?_, ?_⟩, ?_, ?_⟩
  · rw [positions_map_fst]
    exact ((allGroupIds_perm_keys nodes startNode).nodup_iff).mpr hnd
  · intro id
    rw [positions_map_fst]
    exact (allGroupIds_perm_keys nodes startNode).mem_iff
  · intro a b pa pb ha hb hne heq
    obtain ⟨g, hg, i, hgi, hpa⟩ := positions_decomp ha
    obtain ⟨g', hg', j, hgj, hpb⟩ := positions_decomp hb
    have hka : effLevelFn nodes startNode a = g.1 :=
      group_key_eq nodes startNode g hg a (mem_of_getElem?_strings hgi)
    have hkb : effLevelFn nodes startNode b = g'.1 :=
      group_key_eq nodes startNode g' hg' b (mem_of_getElem?_strings hgj)
    have hkk : g.1 = g'.1 := by rw [← hka, ← hkb, heq]
    have hgg : g = g' := by
      have h1 : (g.1, g.2) ∈
          levelGroupsOf nodes startNode (calculateNodeLevels nodes startNode) := by
        simpa using hg
      have h2 : (g.1, g'.2) ∈
          levelGroupsOf nodes startNode (calculateNodeLevels nodes startNode) := by
        rw [hkk]
        simpa using hg'
      exact Prod.ext_iff.mpr
        ⟨hkk, snd_eq_of_nodup_keys (group_keys_nodup nodes startNode) h1 h2⟩
    rw [← hgg] at hgj
    intro hx
    have hij : i ≠ j := by
      intro h
      rw [h] at hgi
      exact hne (Option.some.inj (hgi.symm.trans hgj))
    apply hij
    rw [hpa, hpb, ← hgg] at hx
    simp only at hx
    have hmul : (i : ℚ) * (layoutConfig.getD defaultLayout).nodeWidth =
        (j : ℚ) * (layoutConfig.getD defaultLayout).nodeWidth := by
      exact add_right_cancel (add_left_cancel (by linarith))
    exact Nat.cast_inj.mp (mul_right_cancel₀ hW hmul)
  · intro a b pa pb la lb ha hb hla hlb
    obtain ⟨g, hg, i, hgi, hpa⟩ := positions_decomp ha
    obtain ⟨g', hg', j, hgj, hpb⟩ := positions_decomp hb
    have hka : g.1 = some la := by
      rw [← group_key_eq nodes startNode g hg a (mem_of_getElem?_strings hgi), hla]
    have hkb : g'.1 = some lb := by
      rw [← group_key_eq nodes startNode g' hg' b (mem_of_getElem?_strings hgj), hlb]
    have hya : pa.y =
        some ((la : ℚ) * (layoutConfig.getD defaultLayout).levelHeight +
          (layoutConfig.getD defaultLayout).padding) := by
      rw [hpa]
      simp [hka]
    have hyb : pb.y =
        some ((lb : ℚ) * (layoutConfig.getD defaultLayout).levelHeight +
          (layoutConfig.getD defaultLayout).padding) := by
      rw [hpb]
      simp [hkb]
    constructor
    · intro hlt
      refine ⟨_, _, hya, hyb, ?_⟩
      have : (la : ℚ) < (lb : ℚ) := by exact_mod_cast hlt
      have := mul_lt_mul_of_pos_right this hH
      linarith
    · intro heq
      rw [hya, hyb, heq]

/-- C5 counterexample: the claim quantifies over every layout configuration,
but with `nodeWidth = 0` the same-level nodes `A` and `B` get the same x,
and with `levelHeight = 0` the strictly deeper `A` gets the same y as `S`:
all three nodes are placed at exactly `(60, 60)`. -/
theorem c5_counterexample :
    (calculateAutoPositions exFanNodes "S" (some degenerateLayout)).positions =
      [("S", ⟨60, some 60⟩), ("A", ⟨60, some 60⟩), ("B", ⟨60, some 60⟩)] ∧
      effLevelFn exFanNodes "S" "S" = some 1 ∧
      effLevelFn exFanNodes "S" "A" = some 2 ∧
      effLevelFn exFanNodes "S" "B" = some 2 := by
  refine ⟨?_, by decide, by decide, by decide⟩
  rw [calculateAutoPositions_positions]
  have hg : levelGroupsOf exFanNodes "S" (calculateNodeLevels exFanNodes "S") =
      [(some 1, ["S"]), (some 2, ["A", "B"])] := by decide
  rw [hg]
  norm_num [maxWidthOf, groupPositions, degenerateLayout, List.enum, List.enumFrom]

/-- Witness for C5 (amended) at the spec's four-node example with the
default layout. -/
theorem c5_auto_positions_witness :
    (keys exNodesABCD).Nodup ∧
      ((none : Option LayoutConfig).getD defaultLayout).nodeWidth ≠ 0 ∧
      0 < ((none : Option LayoutConfig).getD defaultLayout).levelHeight ∧
      ((calculateAutoPositions exNodesABCD "A" none).positions.map Prod.fst).Nodup :=
  ⟨by decide, by norm_num [defaultLayout], by norm_num [defaultLayout],
   (c5_auto_positions exNodesABCD "A" none (by decide)
     (by norm_num [defaultLayout]) (by norm_num [defaultLayout])).1.1⟩

/-! ### BFS soundness: every bucketed node is reachable at depth level − 1 -/

theorem mem_addToLevel {m : LevelMap} {lvl : Nat} {id : String}
    {p : Nat × List String} (h : p ∈ addToLevel m lvl id) :
    p ∈ m ∨ (∃ ids, p = (lvl, ids ++ [id]) ∧ (lvl, ids) ∈ m) ∨ p = (lvl, [id]) := by
  induction m with
  | nil =>
    simp only [addToLevel, List.mem_singleton] at h
    exact Or.inr (Or.inr h)
  | cons q rest ih =>
    obtain ⟨l, ids⟩ := q
    by_cases h1 : lvl < l
    · simp only [addToLevel, if_pos h1, List.mem_cons] at h
      rcases h with h | h | h
      · exact Or.inr (Or.inr h)
      · exact Or.inl (by simp [h])
      · exact Or.inl (by simp [h])
    · by_cases h2 : lvl = l
      · simp only [addToLevel, if_neg h1, if_pos h2, List.mem_cons] at h
        rcases h with h | h
        · subst h2
          exact Or.inr (Or.inl ⟨ids, h, by simp⟩)
        · exact Or.inl (by simp [h])
      · simp only [addToLevel, if_neg h1, if_neg h2, List.mem_cons] at h
        rcases h with h | h
        · exact Or.inl (by simp [h])
        · rcases ih h with h | ⟨ids', he, hm⟩ | h
          · exact Or.inl (by simp [h])
          · exact Or.inr (Or.inl ⟨ids', he, by simp [hm]⟩)
          · exact Or.inr (Or.inr h)

theorem bfsAux_sound (nodes : Nodes) (startNode : String) :
    ∀ fuel (q : List QEntry) (v : List String) (l : LevelMap) lv v',
      bfsAux nodes fuel q v l = some (lv, v') →
      (∀ e ∈ q, 1 ≤ e.level ∧ ReachN nodes startNode e.id (e.level - 1)) →
      (∀ p ∈ l, 1 ≤ p.1 ∧ ∀ x ∈ p.2, ReachN nodes startNode x (p.1 - 1)) →
      ∀ p ∈ lv, 1 ≤ p.1 ∧ ∀ x ∈ p.2, ReachN nodes startNode x (p.1 - 1) := by
  intro fuel
  induction fuel with
  | zero =>
    intro q v l lv v' hrun hq hl
    cases q with
    | nil =>
      simp only [bfsAux, Option.some.injEq, Prod.mk.injEq] at hrun
      exact hrun.1 ▸ hl
    | cons e rest => simp [bfsAux] at hrun
  | succ n ih =>
    intro q v l lv v' hrun hq hl
    cases q with
    | nil =>
      simp only [bfsAux, Option.some.injEq, Prod.mk.injEq] at hrun
      exact hrun.1 ▸ hl
    | cons e rest =>
      obtain ⟨id, level⟩ := e
      simp only [bfsAux] at hrun
      by_cases hvis : v.contains id
      · simp only [hvis, if_true] at hrun
        exact ih rest v l lv v' hrun (fun e he => hq e (by simp [he])) hl
      · simp only [hvis, Bool.false_eq_true, if_false] at hrun
        cases hlk : lookupNode nodes id with
        | none =>
          rw [hlk] at hrun
          exact ih rest v l lv v' hrun (fun e he => hq e (by simp [he])) hl
        | some node =>
          rw [hlk] at hrun
          have hhead := hq ⟨id, level⟩ (by simp)
          have hh1 : 1 ≤ level := hhead.1
          have hh2 : ReachN nodes startNode id (level - 1) := hhead.2
          refine ih _ _ _ lv v' hrun ?_ ?_
          · intro e he
            rcases List.mem_append.mp he with he | he
            · exact hq e (by simp [he])
            · rw [mem_newQueueEntries] at he
              obtain ⟨⟨ch, hch, hnext⟩, hne, -, hlev⟩ := he
              have hedge : edgeTo nodes id e.id := ⟨node, hlk, ⟨ch, hch, hnext⟩, hne⟩
              have hreach : ReachN nodes startNode e.id (level - 1 + 1) :=
                ReachN.step hh2 hedge
              constructor
              · omega
              · have heq : e.level - 1 = level - 1 + 1 := by omega
                rw [heq]
                exact hreach
          · intro p hp
            rcases mem_addToLevel hp with hp | ⟨ids, hpe, hpm⟩ | hpe
            · exact hl p hp
            · subst hpe
              obtain ⟨h1, h2⟩ := hl (level, ids) hpm
              refine ⟨h1, ?_⟩
              intro x hx
              rcases List.mem_append.mp hx with hx | hx
              · exact h2 x hx
              · simp only [List.mem_singleton] at hx
                subst hx
                exact hh2
            · subst hpe
              refine ⟨hh1, ?_⟩
              intro x hx
              simp only [List.mem_singleton] at hx
              subst hx
              exact hh2

/-! ### BFS completeness: queued nodes are bucketed at most at their entry
level, and visited nodes satisfy the triangle closure -/

theorem bfsAux_complete (nodes : Nodes) :
    ∀ fuel (q : List QEntry) (v : List String) (l : LevelMap) lv v',
      bfsAux nodes fuel q v l = some (lv, v') →
      List.Perm (allIds l) v →
      q.Pairwise (fun a b => a.level ≤ b.level) →
      (∀ a ∈ q, ∀ b ∈ q, a.level ≤ b.level + 1) →
      (∀ x ∈ v, ∃ b, bucketOf l x = some b ∧ ∀ e ∈ q, b ≤ e.level) →
      (∀ x ∈ v, ∀ c, edgeTo nodes x c → c ∈ keys nodes →
        (∃ bx bc, bucketOf l x = some bx ∧ bucketOf l c = some bc ∧ bc ≤ bx + 1) ∨
        (∃ jl bx, QEntry.mk c jl ∈ q ∧ bucketOf l x = some bx ∧ jl ≤ bx + 1)) →
      ((∀ e ∈ q, e.id ∈ keys nodes →
          ∃ b, bucketOf lv e.id = some b ∧ b ≤ e.level) ∧
       (∀ x ∈ v', ∀ c, edgeTo nodes x c → c ∈ keys nodes →
          ∃ bx bc, bucketOf lv x = some bx ∧ bucketOf lv c = some bc ∧
            bc ≤ bx + 1) ∧
       (∀ x b, bucketOf l x = some b → bucketOf lv x = some b)) := by
  intro fuel
  induction fuel with
  | zero =>
    intro q v l lv v' hrun hperm hsort hspan hVB hF
    cases q with
    | nil =>
      simp only [bfsAux, Option.some.injEq, Prod.mk.injEq] at hrun
      obtain ⟨h1, h2⟩ := hrun
      subst h1; subst h2
      refine ⟨by simp, ?_, fun x b hb => hb⟩
      intro x hx c hedge hc
      rcases hF x hx c hedge hc with h | ⟨jl, bx, hq, -, -⟩
      · exact h
      · simp at hq
    | cons e rest => simp [bfsAux] at hrun
  | succ n ih =>
    intro q v l lv v' hrun hperm hsort hspan hVB hF
    cases q with
    | nil =>
      simp only [bfsAux, Option.some.injEq, Prod.mk.injEq] at hrun
      obtain ⟨h1, h2⟩ := hrun
      subst h1; subst h2
      refine ⟨by simp, ?_, fun x b hb => hb⟩
      intro x hx c hedge hc
      rcases hF x hx c hedge hc with h | ⟨jl, bx, hq, -, -⟩
      · exact h
      · simp at hq
    | cons e rest =>
      obtain ⟨id, m⟩ := e
      simp only [bfsAux] at hrun
      have hsort' : rest.Pairwise (fun a b => a.level ≤ b.level) :=
        List.Pairwise.of_cons hsort
      have hmrest : ∀ b ∈ rest, m ≤ b.level := fun b hb =>
        List.rel_of_pairwise_cons hsort hb
      have hspan' : ∀ a ∈ rest, ∀ b ∈ rest, a.level ≤ b.level + 1 :=
        fun a ha b hb => hspan a (by simp [ha]) b (by simp [hb])
      have hrestm1 : ∀ a ∈ rest, a.level ≤ m + 1 := fun a ha =>
        hspan a (by simp [ha]) ⟨id, m⟩ (by simp)
      by_cases hvis : v.contains id
      · simp only [hvis, if_true] at hrun
        have hidv : id ∈ v := by simpa [List.elem_eq_mem] using hvis
        have hVB' : ∀ x ∈ v, ∃ b, bucketOf l x = some b ∧ ∀ e ∈ rest, b ≤ e.level :=
          fun x hx => (hVB x hx).imp fun b ⟨hb, hbd⟩ =>
            ⟨hb, fun e he => hbd e (by simp [he])⟩
        have hF' : ∀ x ∈ v, ∀ c, edgeTo nodes x c → c ∈ keys nodes →
            (∃ bx bc, bucketOf l x = some bx ∧ bucketOf l c = some bc ∧
              bc ≤ bx + 1) ∨
            (∃ jl bx, QEntry.mk c jl ∈ rest ∧ bucketOf l x = some bx ∧
              jl ≤ bx + 1) := by
          intro x hx c hedge hc
          rcases hF x hx c hedge hc with h | ⟨jl, bx, hq, hbx, hle⟩
          · exact Or.inl h
          · simp only [List.mem_cons, QEntry.mk.injEq] at hq
            rcases hq with ⟨hc1, hj1⟩ | hq
            · subst hc1
              subst hj1
              obtain ⟨bc, hbc, hbd⟩ := hVB c hidv
              have hbcm : bc ≤ jl := hbd ⟨c, jl⟩ (by simp)
              exact Or.inl ⟨bx, bc, hbx, hbc, by omega⟩
            · exact Or.inr ⟨jl, bx, hq, hbx, hle⟩
        obtain ⟨hI, hII, hIII⟩ := ih rest v l lv v' hrun hperm hsort' hspan' hVB' hF'
        refine ⟨?_, hII, hIII⟩
        intro e he hek
        rcases List.mem_cons.mp he with he | he
        · subst he
          obtain ⟨b, hb, hbd⟩ := hVB id hidv
          have hbm : b ≤ m := hbd ⟨id, m⟩ (by simp)
          exact ⟨b, hIII id b hb, hbm⟩
        · exact hI e he hek
      · simp only [hvis, Bool.false_eq_true, if_false] at hrun
        cases hlk : lookupNode nodes id with
        | none =>
          rw [hlk] at hrun
          have hidnk : id ∉ keys nodes := by
            rw [← lookupNode_isSome_iff]
            simp [hlk]
          have hVB' : ∀ x ∈ v, ∃ b, bucketOf l x = some b ∧
              ∀ e ∈ rest, b ≤ e.level :=
            fun x hx => (hVB x hx).imp fun b ⟨hb, hbd⟩ =>
              ⟨hb, fun e he => hbd e (by simp [he])⟩
          have hF' : ∀ x ∈ v, ∀ c, edgeTo nodes x c → c ∈ keys nodes →
              (∃ bx bc, bucketOf l x = some bx ∧ bucketOf l c = some bc ∧
                bc ≤ bx + 1) ∨
              (∃ jl bx, QEntry.mk c jl ∈ rest ∧ bucketOf l x = some bx ∧
                jl ≤ bx + 1) := by
            intro x hx c hedge hc
            rcases hF x hx c hedge hc with h | ⟨jl, bx, hq, hbx, hle⟩
            · exact Or.inl h
            · simp only [List.mem_cons, QEntry.mk.injEq] at hq
              rcases hq with ⟨hc1, hj1⟩ | hq
              · subst hc1
                exact absurd hc hidnk
              · exact Or.inr ⟨jl, bx, hq, hbx, hle⟩
          obtain ⟨hI, hII, hIII⟩ := ih rest v l lv v' hrun hperm hsort' hspan' hVB' hF'
          refine ⟨?_, hII, hIII⟩
          intro e he hek
          rcases List.mem_cons.mp he with he | he
          · subst he
            exact absurd hek hidnk
          · exact hI e he hek
        | some node =>
          rw [hlk] at hrun
          have hidnv : id ∉ v := by simpa [List.elem_eq_mem] using hvis
          have hidnl : id ∉ allIds l := fun hx => hidnv (hperm.mem_iff.mp hx)
          have hbid : bucketOf (addToLevel l m id) id = some m :=
            bucketOf_addToLevel_self hidnl
          have hpers : ∀ x b, bucketOf l x = some b →
              bucketOf (addToLevel l m id) x = some b := by
            intro x b hb
            have hxl : x ∈ allIds l := by
              rw [← bucketOf_isSome_iff]
              simp [hb]
            have hxid : x ≠ id := fun h => hidnl (h ▸ hxl)
            rw [bucketOf_addToLevel_of_ne hxid]
            exact hb
          have hperm' : List.Perm (allIds (addToLevel l m id)) (v ++ [id]) :=
            ((allIds_addToLevel l m id).trans (hperm.cons id)).trans
              (List.perm_append_singleton id v).symm
          have heslev : ∀ e ∈ newQueueEntries node.choices (v ++ [id]) m,
              e.level = m + 1 := by
            intro e he
            exact (mem_newQueueEntries.mp he).2.2.2
          have hsortnew : (rest ++ newQueueEntries node.choices (v ++ [id]) m).Pairwise
              (fun a b => a.level ≤ b.level) := by
            rw [List.pairwise_append]
            refine ⟨hsort', ?_, ?_⟩
            · apply List.pairwise_of_forall_mem_list
              intro a ha b hb
              rw [heslev a ha, heslev b hb]
            · intro a ha b hb
              rw [heslev b hb]
              exact hrestm1 a ha
          have hspannew : ∀ a ∈ rest ++ newQueueEntries node.choices (v ++ [id]) m,
              ∀ b ∈ rest ++ newQueueEntries node.choices (v ++ [id]) m,
              a.level ≤ b.level + 1 := by
            intro a ha b hb
            have hal : a.level ≤ m + 1 := by
              rcases List.mem_append.mp ha with h | h
              · exact hrestm1 a h
              · rw [heslev a h]
            have hbl : m ≤ b.level := by
              rcases List.mem_append.mp hb with h | h
              · exact hmrest b h
              · rw [heslev b h]; omega
            omega
          have hVBnew : ∀ x ∈ v ++ [id], ∃ b,
              bucketOf (addToLevel l m id) x = some b ∧
              ∀ e ∈ rest ++ newQueueEntries node.choices (v ++ [id]) m,
                b ≤ e.level := by
            intro x hx
            rcases List.mem_append.mp hx with hx | hx
            · obtain ⟨b, hb, hbd⟩ := hVB x hx
              have hbm : b ≤ m := hbd ⟨id, m⟩ (by simp)
              refine ⟨b, hpers x b hb, ?_⟩
              intro e he
              rcases List.mem_append.mp he with he | he
              · exact hbd e (by simp [he])
              · rw [heslev e he]; omega
            · simp only [List.mem_singleton] at hx
              subst hx
              refine ⟨m, hbid, ?_⟩
              intro e he
              rcases List.mem_append.mp he with he | he
              · exact hmrest e he
              · rw [heslev e he]; omega
          have hFnew : ∀ x ∈ v ++ [id], ∀ c, edgeTo nodes x c → c ∈ keys nodes →
              (∃ bx bc, bucketOf (addToLevel l m id) x = some bx ∧
                bucketOf (addToLevel l m id) c = some bc ∧ bc ≤ bx + 1) ∨
              (∃ jl bx,
                QEntry.mk c jl ∈ rest ++ newQueueEntries node.choices (v ++ [id]) m ∧
                bucketOf (addToLevel l m id) x = some bx ∧ jl ≤ bx + 1) := by
            intro x hx c hedge hc
            rcases List.mem_append.mp hx with hx | hx
            · rcases hF x hx c hedge hc with ⟨bx, bc, hbx, hbc, hle⟩ |
                ⟨jl, bx, hq, hbx, hle⟩
              · exact Or.inl ⟨bx, bc, hpers x bx hbx, hpers c bc hbc, hle⟩
              · simp only [List.mem_cons, QEntry.mk.injEq] at hq
                rcases hq with ⟨hc1, hj1⟩ | hq
                · subst hc1
                  subst hj1
                  exact Or.inl ⟨bx, jl, hpers x bx hbx, hbid, hle⟩
                · exact Or.inr ⟨jl, bx, by simp [hq], hpers x bx hbx, hle⟩
            · simp only [List.mem_singleton] at hx
              subst hx
              obtain ⟨node', hlk', ⟨ch, hch, hnext⟩, hne⟩ := hedge
              have hnn : node' = node := by
                rw [hlk] at hlk'
                exact (Option.some.inj hlk').symm
              subst hnn
              by_cases hcv : c ∈ v ++ [x]
              · rcases List.mem_append.mp hcv with hcv | hcv
                · obtain ⟨bc, hbc, hbd⟩ := hVB c hcv
                  have hbcm : bc ≤ m := hbd ⟨x, m⟩ (by simp)
                  exact Or.inl ⟨m, bc, hbid, hpers c bc hbc, by omega⟩
                · simp only [List.mem_singleton] at hcv
                  subst hcv
                  exact Or.inl ⟨m, m, hbid, hbid, by omega⟩
              · refine Or.inr ⟨m + 1, m, ?_, hbid, by omega⟩
                refine List.mem_append.mpr (Or.inr ?_)
                rw [mem_newQueueEntries]
                exact ⟨⟨ch, hch, hnext⟩, hne, hcv, rfl⟩
          obtain ⟨hI, hII, hIII⟩ := ih _ _ _ lv v' hrun hperm' hsortnew hspannew
            hVBnew hFnew
          refine ⟨?_, hII, fun x b hb => hIII x b (hpers x b hb)⟩
          intro e he hek
          rcases List.mem_cons.mp he with he | he
          · subst he
            exact ⟨m, hIII id m hbid, le_refl m⟩
          · exact hI e (by simp [he]) hek

theorem orphanFold_bucketOf (visited ks : List String) :
    ∀ (l : LevelMap) (x : String) (b : Nat), x ∈ visited → bucketOf l x = some b →
      bucketOf
        (ks.foldl
          (fun lv id => if visited.contains id then lv else addToLevel lv 0 id) l)
        x = some b := by
  induction ks with
  | nil => intro l x b _ hb; exact hb
  | cons k ks ih =>
    intro l x b hx hb
    simp only [List.foldl_cons]
    by_cases h : visited.contains k
    · simp only [h, if_true]
      exact ih l x b hx hb
    · have hkm : k ∉ visited := by simpa [List.elem_eq_mem] using h
      have hxk : x ≠ k := fun he => hkm (he ▸ hx)
      simp only [h, Bool.false_eq_true, if_false]
      refine ih _ x b hx ?_
      rw [bucketOf_addToLevel_of_ne hxk]
      exact hb

theorem reach_bucket_le (nodes : Nodes) (startNode : String) {lv : LevelMap}
    {v' : List String}
    (hrun : bfsAux nodes (bfsFuel nodes) [⟨startNode, 1⟩] [] [] = some (lv, v')) :
    ∀ {x : String} {n : Nat}, ReachN nodes startNode x n → x ∈ keys nodes →
      ∃ b, bucketOf lv x = some b ∧ b ≤ n + 1 := by
  obtain ⟨hI, hII, -⟩ := bfsAux_complete nodes (bfsFuel nodes) [⟨startNode, 1⟩] [] []
    lv v' hrun (by simp [allIds]) (by simp) (by simp) (by simp) (by simp)
  obtain ⟨hpermfin, -, -, -⟩ := bfsAux_inv nodes (bfsFuel nodes) [⟨startNode, 1⟩]
    [] [] lv v' hrun (by simp [allIds]) (by simp) (by simp)
  intro x n hreach
  induction hreach with
  | refl =>
    intro hmem
    obtain ⟨b, hb, hble⟩ := hI ⟨startNode, 1⟩ (by simp) hmem
    have hble' : b ≤ 1 := hble
    exact ⟨b, hb, by omega⟩
  | step hr hedge ihh =>
    rename_i b c n'
    intro hmem
    have hbmem : b ∈ keys nodes := by
      obtain ⟨nodeb, hlb, -, -⟩ := hedge
      rw [← lookupNode_isSome_iff]
      simp [hlb]
    obtain ⟨bb, hbb, hble⟩ := ihh hbmem
    have hbsome : (bucketOf lv b).isSome = true := by simp [hbb]
    have hbv : b ∈ v' := hpermfin.mem_iff.mp (bucketOf_isSome_iff.mp hbsome)
    obtain ⟨bx, bc', hbx, hbc, hcle⟩ := hII b hbv c hedge hmem
    have hbxe : bx = bb := by
      rw [hbx] at hbb
      exact Option.some.inj hbb
    exact ⟨bc', hbc, by omega⟩

/-- C2 (amended): for every node mapping — the claim's no-cycle hypothesis is
kept although BFS first-discovery levels are shortest-path even with
cycles — a node of the mapping at shortest hop distance `d` from
`startNode` is assigned level `d + 1` by `calculateNodeLevels`.  (The claim
as stated — level equals the distance — is off by one: the start node is at
distance 0 but level 1.) -/
theorem c2_bfs_shortest (nodes : Nodes) (startNode id : String) (d : Nat)
    (_hacyc : Acyclic nodes) (hmem : id ∈ keys nodes)
    (hdist : IsShortestDist nodes startNode id d) :
    bucketOf (calculateNodeLevels nodes startNode) id = some (d + 1) := by
  obtain ⟨r, hr⟩ := Option.isSome_iff_exists.mp (bfsAux_isSome nodes startNode)
  obtain ⟨lv, v'⟩ := r
  obtain ⟨hpermfin, -, -, -⟩ := bfsAux_inv nodes (bfsFuel nodes) [⟨startNode, 1⟩]
    [] [] lv v' hr (by simp [allIds]) (by simp) (by simp)
  obtain ⟨b, hb, hble⟩ := reach_bucket_le nodes startNode hr hdist.1 hmem
  have hsound := bfsAux_sound nodes startNode (bfsFuel nodes) [⟨startNode, 1⟩]
    [] [] lv v' hr ?_ (by simp)
  · obtain ⟨ids, hbm, hidm⟩ := bucketOf_mem hb
    obtain ⟨hb1, hreach'⟩ := hsound (b, ids) hbm
    have hrb : ReachN nodes startNode id (b - 1) := hreach' id hidm
    have hdle : d ≤ b - 1 := hdist.2 _ hrb
    have hbb : b = d + 1 := by omega
    have hbsome : (bucketOf lv id).isSome = true := by simp [hb]
    have hvd : id ∈ v' := hpermfin.mem_iff.mp (bucketOf_isSome_iff.mp hbsome)
    have hfinal := orphanFold_bucketOf v' (keys nodes) lv id b hvd hb
    simp only [calculateNodeLevels, hr]
    rw [← hbb]
    exact hfinal
  · intro e he
    simp only [List.mem_singleton] at he
    subst he
    exact ⟨le_refl 1, ReachN.refl startNode⟩

/-- C2 counterexample: in the single-node mapping `{A}` with start `A`, the
node `A` is reachable at shortest hop distance 0, yet `calculateNodeLevels`
assigns it level 1, not 0 — the claimed equality of level and hop distance
fails at the start node. -/
theorem c2_counterexample :
    IsShortestDist exSingleNode "A" "A" 0 ∧
      bucketOf (calculateNodeLevels exSingleNode "A") "A" = some 1 ∧
      ¬ bucketOf (calculateNodeLevels exSingleNode "A") "A" = some 0 :=
  ⟨⟨ReachN.refl "A", fun m _ => Nat.zero_le m⟩, by decide, by decide⟩

theorem acyclic_of_rank (nodes : Nodes) (rank : String → Nat)
    (h : ∀ a b, edgeTo nodes a b → rank a < rank b) : Acyclic nodes := by
  have key : ∀ a b n, ReachN nodes a b n → rank a ≤ rank b ∧
      (0 < n → rank a < rank b) := by
    intro a b n hr
    induction hr with
    | refl => exact ⟨le_refl _, fun h0 => absurd h0 (by omega)⟩
    | step hr hedge ihh =>
      have hlt := h _ _ hedge
      obtain ⟨h1, -⟩ := ihh
      exact ⟨by omega, fun _ => by omega⟩
  intro x n hn hr
  exact absurd ((key x x n hr).2 hn) (lt_irrefl _)

theorem rank_le_of_reach (nodes : Nodes) (rank : String → Nat)
    (h : ∀ a b, edgeTo nodes a b → rank b ≤ rank a + 1) :
    ∀ {a b : String} {n : Nat}, ReachN nodes a b n → rank b ≤ rank a + n := by
  intro a b n hr
  induction hr with
  | refl => omega
  | step hr hedge ihh =>
    have := h _ _ hedge
    omega

theorem edges_exABCD (a b : String) (h : edgeTo exNodesABCD a b) :
    (a = "A" ∧ b = "B") ∨ (a = "B" ∧ b = "C") := by
  obtain ⟨node, hl, ⟨ch, hch, hnext⟩, hne⟩ := h
  have ha : a ∈ keys exNodesABCD := by
    rw [← lookupNode_isSome_iff]
    simp [hl]
  have ha' : a = "A" ∨ a = "B" ∨ a = "C" ∨ a = "D" := by
    simpa [keys, exNodesABCD] using ha
  rcases ha' with rfl | rfl | rfl | rfl
  · have hn : node = ⟨[⟨some "B"⟩], none⟩ := by
      have h2 : lookupNode exNodesABCD "A" = some ⟨[Choice.mk (some "B")], none⟩ := by
        decide
      rw [h2] at hl
      exact (Option.some.inj hl).symm
    subst hn
    simp only [List.mem_singleton] at hch
    subst hch
    simp only [Choice.mk.injEq, Option.some.injEq] at hnext
    exact Or.inl ⟨rfl, hnext.symm⟩
  · have hn : node = ⟨[⟨some "C"⟩], none⟩ := by
      have h2 : lookupNode exNodesABCD "B" = some ⟨[Choice.mk (some "C")], none⟩ := by
        decide
      rw [h2] at hl
      exact (Option.some.inj hl).symm
    subst hn
    simp only [List.mem_singleton] at hch
    subst hch
    simp only [Choice.mk.injEq, Option.some.injEq] at hnext
    exact Or.inr ⟨rfl, hnext.symm⟩
  · have hn : node = ⟨[], none⟩ := by
      have h2 : lookupNode exNodesABCD "C" = some ⟨[], none⟩ := by decide
      rw [h2] at hl
      exact (Option.some.inj hl).symm
    subst hn
    simp at hch
  · have hn : node = ⟨[], none⟩ := by
      have h2 : lookupNode exNodesABCD "D" = some ⟨[], none⟩ := by decide
      rw [h2] at hl
      exact (Option.some.inj hl).symm
    subst hn
    simp at hch

/-- Witness for C2 (amended): in the A → B → C chain, `C` is at shortest
distance 2 from `A` and is assigned level 3. -/
theorem c2_bfs_shortest_witness :
    Acyclic exNodesABCD ∧ "C" ∈ keys exNodesABCD ∧
      IsShortestDist exNodesABCD "A" "C" 2 ∧
      bucketOf (calculateNodeLevels exNodesABCD "A") "C" = some (2 + 1) := by
  have hacyc : Acyclic exNodesABCD := by
    refine acyclic_of_rank exNodesABCD rankABCD ?_
    intro a b h
    rcases edges_exABCD a b h with ⟨rfl, rfl⟩ | ⟨rfl, rfl⟩ <;> simp [rankABCD]
  have heAB : edgeTo exNodesABCD "A" "B" :=
    ⟨⟨[⟨some "B"⟩], none⟩, by decide, ⟨⟨some "B"⟩, by simp, rfl⟩, by decide⟩
  have heBC : edgeTo exNodesABCD "B" "C" :=
    ⟨⟨[⟨some "C"⟩], none⟩, by decide, ⟨⟨some "C"⟩, by simp, rfl⟩, by decide⟩
  have hreach : ReachN exNodesABCD "A" "C" 2 :=
    ReachN.step (ReachN.step (ReachN.refl "A") heAB) heBC
  have hmin : ∀ m, ReachN exNodesABCD "A" "C" m → 2 ≤ m := by
    intro m hm
    have hrk : ∀ a b, edgeTo exNodesABCD a b → rankABCD b ≤ rankABCD a + 1 := by
      intro a b h
      rcases edges_exABCD a b h with ⟨rfl, rfl⟩ | ⟨rfl, rfl⟩ <;> simp [rankABCD]
    have := rank_le_of_reach exNodesABCD rankABCD hrk hm
    simp [rankABCD] at this
    omega
  exact ⟨hacyc, by decide, ⟨hreach, hmin⟩,
    c2_bfs_shortest exNodesABCD "A" "C" 2 hacyc (by decide) ⟨hreach, hmin⟩⟩

/-- Witness for C9 (amended) at the single self-loop node. -/
theorem c9_self_loop_noop_witness :
    lookupNode selfLoopNodes "A" = some ⟨[⟨some "A"⟩], none⟩ ∧
      Choice.mk (some "A") ∈ Node.choices ⟨[⟨some "A"⟩], none⟩ ∧
      (keys selfLoopNodes).Nodup ∧
      ((∀ (level : Nat) (visited : List String), "A" ∈ visited →
          QEntry.mk "A" (level + 1) ∉
            newQueueEntries (Node.choices ⟨[⟨some "A"⟩], none⟩) visited level) ∧
        (bfsAux selfLoopNodes (bfsFuel selfLoopNodes) [⟨"A", 1⟩] [] []).isSome ∧
        (allIds (calculateNodeLevels selfLoopNodes "A")).count "A" ≤ 1) := by
  have h := c9_self_loop_noop selfLoopNodes "A" "A" ⟨[⟨some "A"⟩], none⟩
    (by decide) (by decide)
  exact ⟨by decide, by decide, by decide, h.1, h.2.1, h.2.2 (by decide)⟩

end ChoiceMap
